import Mathlib

/-! Checkpoint store of `src/checkpoints/checkpoints.cpp`.

A shallow embedding of the class `cryptonote::checkpoints` and of the
properties its specification states about it.

* `std::map<uint64_t, crypto::hash>` is a list of (height, hash) pairs kept in
  strictly ascending key order; the order is an invariant carried by the
  structure `checkpoints`, as it is by the C++ container.
* Positional iterators (`begin`, `end`, `--it`, the result of `upper_bound`
  and of `std::max_element`) are indices into that list, `end()` being the
  length.  Dereferencing `end()` is undefined behaviour and is `none`.
* Heights are `uint64_t` in the source.  The store only compares them, so they
  are natural numbers here; the one place where the width matters, the stream
  extraction of a height from a DNS record, reduces modulo `2 ^ 64`.
* A member function that mutates the object returns the new object next to
  its `bool`; a `const` member function returns its result only.
* Logging is not modelled.
-/

namespace crypto

/-- The type `crypto::hash`: a plain buffer of 32 bytes, compared bytewise. -/
structure hash where
  data : List (Fin 256)
  size_eq : data.length = 32

theorem hash.ext_data {a b : hash} (h : a.data = b.data) : a = b := by
  cases a; cases b; cases h; rfl

instance : DecidableEq hash := fun a b =>
  if h : a.data = b.data then isTrue (hash.ext_data h)
  else isFalse (fun e => h (by rw [e]))

end crypto

namespace epee

/-- Modelled from the spec: value of one hexadecimal character, either case
(the hex codec of `string_tools.h` is not part of the sources at hand). -/
def hex_value (c : Char) : Option Nat :=
  let n := c.toNat
  if 48 ≤ n ∧ n ≤ 57 then some (n - 48)
  else if 97 ≤ n ∧ n ≤ 102 then some (n - 87)
  else if 65 ≤ n ∧ n ≤ 70 then some (n - 55)
  else none

/-- Modelled from the spec: `parse_hexstr_to_binbuff` of `string_tools.h`, which
turns a string of hexadecimal characters into bytes, two characters a byte, and
fails on any other character and on an odd length. -/
def parse_hexstr_to_binbuff : List Char → Option (List (Fin 256))
  | [] => some []
  | [_] => none
  | hi :: lo :: rest =>
    match hex_value hi, hex_value lo, parse_hexstr_to_binbuff rest with
    | some a, some b, some tl => some (Fin.ofNat (16 * a + b) :: tl)
    | _, _, _ => none

/-- Modelled from the spec: `parse_tpod_from_hex_string` of `string_tools.h` at
the type `crypto::hash`: "decodes `hash_hex` as a 32-byte digest from a
64-character hexadecimal string", failing on everything else. -/
def parse_tpod_from_hex_string (str_hash : String) : Option crypto.hash :=
  match parse_hexstr_to_binbuff str_hash.data with
  | some buf => if h : buf.length = 32 then some ⟨buf, h⟩ else none
  | none => none

end epee

/-! ## `std::map<uint64_t, crypto::hash>` -/

namespace map

/-- The strict ascending key order every `std::map` keeps. -/
def ordered (m : List (Nat × crypto.hash)) : Prop :=
  m.Pairwise (fun a b => a.1 < b.1)

/-- The value stored under key `k`, when there is one: `find`, `at` and reading
through `operator[]` at a key that is present. -/
def find : List (Nat × crypto.hash) → Nat → Option crypto.hash
  | [], _ => none
  | p :: rest, k => if p.1 = k then some p.2 else find rest k

/-- The member `count(k)`: 1 when the key is present, 0 when not. -/
def count (m : List (Nat × crypto.hash)) (k : Nat) : Nat :=
  if (find m k).isSome then 1 else 0

/-- The statement `m[k] = v`: overwrites the value at a key that is present,
inserts the pair at its place in the order when not. -/
def assign : List (Nat × crypto.hash) → Nat → crypto.hash → List (Nat × crypto.hash)
  | [], k, v => [(k, v)]
  | p :: rest, k, v =>
    if k < p.1 then (k, v) :: p :: rest
    else if k = p.1 then (k, v) :: rest
    else p :: assign rest k v

/-- The element an iterator points at; `none` for `end()`. -/
def deref (m : List (Nat × crypto.hash)) (it : Nat) : Option (Nat × crypto.hash) :=
  m[it]?

/-- The member `upper_bound(k)`: position of the first element whose key is
greater than `k`, `end()` when there is none. -/
def upper_bound : List (Nat × crypto.hash) → Nat → Nat
  | [], _ => 0
  | p :: rest, k => if k < p.1 then 0 else upper_bound rest k + 1

/-- Loop of `std::max_element` under the comparison of `get_max_height`
(`a.first < b.first`): `it` walks the rest of the range, `largest` is the
position of the greatest element so far and `key` its key. -/
def max_element_loop : List (Nat × crypto.hash) → Nat → Nat → Nat → Nat
  | [], _, largest, _ => largest
  | p :: rest, it, largest, key =>
    if key < p.1 then max_element_loop rest (it + 1) it p.1
    else max_element_loop rest (it + 1) largest key

/-- The call `std::max_element(m.begin(), m.end(), comp)`: `end()` on the empty
range, else the position of the first greatest element. -/
def max_element : List (Nat × crypto.hash) → Nat
  | [] => 0
  | p :: rest => max_element_loop rest 1 0 p.1

theorem ordered_assign (m : List (Nat × crypto.hash)) (k : Nat) (v : crypto.hash)
    (hm : ordered m) : ordered (assign m k v) := by
  unfold ordered at hm ⊢
  induction m with
  | nil => simp [assign]
  | cons p rest ih =>
    rw [List.pairwise_cons] at hm
    obtain ⟨hp, hrest⟩ := hm
    unfold assign
    by_cases h1 : k < p.1
    · rw [if_pos h1]
      refine List.pairwise_cons.2 ⟨?_, List.pairwise_cons.2 ⟨hp, hrest⟩⟩
      intro q hq
      rcases List.mem_cons.1 hq with rfl | hq
      · exact h1
      · exact lt_trans h1 (hp q hq)
    · rw [if_neg h1]
      by_cases h2 : k = p.1
      · rw [if_pos h2]
        refine List.pairwise_cons.2 ⟨?_, hrest⟩
        intro q hq
        show k < q.1
        rw [h2]
        exact hp q hq
      · rw [if_neg h2]
        refine List.pairwise_cons.2 ⟨?_, ih hrest⟩
        intro q hq
        have hkp : p.1 < k := lt_of_le_of_ne (Nat.le_of_not_lt h1) (Ne.symm h2)
        have key : ∀ (l : List (Nat × crypto.hash)), (∀ x ∈ l, p.1 < x.1) →
            ∀ x ∈ assign l k v, p.1 < x.1 := by
          intro l
          induction l with
          | nil =>
            intro _ x hx
            simp only [assign, List.mem_singleton] at hx
            rw [hx]; exact hkp
          | cons a l ihl =>
            intro hl x hx
            unfold assign at hx
            split_ifs at hx
            · rcases List.mem_cons.1 hx with rfl | hx
              · exact hkp
              · exact hl x hx
            · rcases List.mem_cons.1 hx with rfl | hx
              · exact hkp
              · exact hl x (List.mem_cons_of_mem _ hx)
            · rcases List.mem_cons.1 hx with rfl | hx
              · exact hl _ (List.mem_cons_self _ _)
              · exact ihl (fun y hy => hl y (List.mem_cons_of_mem _ hy)) x hx
        exact key rest hp q hq

end map

/-! ## Standard library pieces used by the DNS loader -/

namespace std

/-- Characters the classic locale counts as white space (`std::isspace`). -/
def isspace (c : Char) : Bool :=
  c.toNat = 32 || (9 ≤ c.toNat && c.toNat ≤ 13)

/-- Decimal digits (`std::isdigit`). -/
def isdigit (c : Char) : Bool :=
  48 ≤ c.toNat && c.toNat ≤ 57

/-- Value of a run of decimal digits, most significant first. -/
def digits_value (ds : List Char) : Nat :=
  ds.foldl (fun acc c => 10 * acc + (c.toNat - 48)) 0

/-- The statement `std::stringstream ss(text); ss >> height` for a `uint64_t`
under the default flags: leading white space is skipped, one sign is accepted,
the longest run of decimal digits is read and what follows it is left in the
stream.  The extraction fails (`none`) when there is no digit or when the
digits exceed `2 ^ 64 - 1`; a value read after a minus sign is negated
modulo `2 ^ 64`. -/
def stream_extract_uint64 (text : List Char) : Option Nat :=
  let body := text.dropWhile isspace
  let signed : Bool × List Char :=
    match body with
    | c :: rest => if c = '-' then (true, rest) else if c = '+' then (false, rest) else (false, body)
    | [] => (false, body)
  let ds := signed.2.takeWhile isdigit
  if ds = [] then none
  else if 2 ^ 64 ≤ digits_value ds then none
  else if signed.1 then some ((2 ^ 64 - digits_value ds) % 2 ^ 64)
  else some (digits_value ds)

/-- The call `record.find(":")`: position of the first occurrence of `c`,
`none` for `npos`. -/
def string_find (c : Char) : List Char → Option Nat
  | [] => none
  | d :: rest => if d = c then some 0 else (string_find c rest).map (· + 1)

end std

/-! ## The class `cryptonote::checkpoints` -/

namespace cryptonote

/-- Modelled from the spec: the network variants "main/test/stage"; the
enumeration is declared in a header that is not part of the sources at hand. -/
inductive network_type
  | MAINNET
  | TESTNET
  | STAGENET
deriving DecidableEq

/-- One checkpoint line of the JSON file. -/
structure t_hashline where
  height : Nat
  hash : String

/-- The checkpoint lines of the JSON file. -/
structure t_hash_json where
  hashlines : List t_hashline

/-- What the file system and the JSON loader answer for the path handed to
`load_checkpoints_from_json`: `boost::filesystem::exists` is false
(`not_found`); the file exists and `load_t_from_json_file` fails
(`malformed`); the file exists and is loaded into a `t_hash_json`. -/
inductive hashfile
  | not_found
  | malformed
  | loaded (hashes : t_hash_json)

/-- The class `checkpoints`: its only data member is `m_points`. -/
structure checkpoints where
  m_points : List (Nat × crypto.hash)
  ordered : map.ordered m_points

theorem checkpoints.ext_points {a b : checkpoints} (h : a.m_points = b.m_points) : a = b := by
  cases a; cases b; cases h; rfl

instance : DecidableEq checkpoints := fun a b =>
  if h : a.m_points = b.m_points then isTrue (checkpoints.ext_points h)
  else isFalse (fun e => h (by rw [e]))

/-- The constructor `checkpoints::checkpoints()`: an empty table. -/
def checkpoints.new : checkpoints := ⟨[], List.Pairwise.nil⟩

/-- The statement `m_points[height] = h` on the object. -/
def checkpoints.assign (s : checkpoints) (height : Nat) (h : crypto.hash) : checkpoints :=
  ⟨map.assign s.m_points height h, map.ordered_assign s.m_points height h s.ordered⟩

/-- The member `add_checkpoint`. -/
def add_checkpoint (s : checkpoints) (height : Nat) (hash_str : String) : Bool × checkpoints :=
  match epee.parse_tpod_from_hex_string hash_str with
  | none => (false, s)
  | some h =>
    if map.count s.m_points height ≠ 0 ∧ ¬ (some h = map.find s.m_points height) then (false, s)
    else (true, s.assign height h)

/-- The member `is_in_checkpoint_zone`; `&&` evaluates its right operand, which
dereferences `--m_points.end()`, only when the table is not empty. -/
def is_in_checkpoint_zone (s : checkpoints) (height : Nat) : Option Bool :=
  if s.m_points.isEmpty then some false
  else (map.deref s.m_points (s.m_points.length - 1)).map (fun p => decide (height ≤ p.1))

/-- The three-argument member `check_block`: the returned `bool` and the value
written to `is_a_checkpoint`. -/
def check_block (s : checkpoints) (height : Nat) (h : crypto.hash) : Bool × Bool :=
  match map.find s.m_points height with
  | none => (true, false)
  | some stored => if stored = h then (true, true) else (false, true)

/-- The member `is_alternative_block_allowed`. -/
def is_alternative_block_allowed (s : checkpoints) (blockchain_height block_height : Nat) :
    Option Bool :=
  if 0 = block_height then some false
  else
    let it := map.upper_bound s.m_points blockchain_height
    if it = 0 then some true
    else (map.deref s.m_points (it - 1)).map (fun p => decide (p.1 < block_height))

/-- The member `get_max_height`: `highest->first`, undefined when
`std::max_element` returns `end()`. -/
def get_max_height (s : checkpoints) : Option Nat :=
  (map.deref s.m_points (map.max_element s.m_points)).map Prod.fst

/-- The member `get_points`. -/
def get_points (s : checkpoints) : List (Nat × crypto.hash) := s.m_points

/-- Loop of `check_for_conflicts` over the points of the other object. -/
def check_for_conflicts_loop (s : checkpoints) : List (Nat × crypto.hash) → Bool
  | [] => true
  | pt :: rest =>
    if map.count s.m_points pt.1 ≠ 0 ∧ ¬ (some pt.2 = map.find s.m_points pt.1) then false
    else check_for_conflicts_loop s rest

/-- The member `check_for_conflicts`. -/
def check_for_conflicts (s other : checkpoints) : Bool :=
  check_for_conflicts_loop s (get_points other)

/-- Modelled from the spec: a run of consecutive `ADD_CHECKPOINT(h, hash);`
statements.  The macro is defined in `checkpoints.h`, which is not part of the
sources at hand; by the spec "any `add_checkpoint` failure aborts", the
enclosing member returning false there. -/
def ADD_CHECKPOINTS : checkpoints → List (Nat × String) → Bool × checkpoints
  | s, [] => (true, s)
  | s, (h, hash) :: rest =>
    match add_checkpoint s h hash with
    | (true, s1) => ADD_CHECKPOINTS s1 rest
    | (false, s1) => (false, s1)

/-- The table compiled into `init_default_checkpoints` for the main network. -/
def mainnet_checkpoints : List (Nat × String) :=
  [ (1, "31c66763d4582a4de671222f2fa187969cacef1b5412628187d08beffc79516a"),
    (10000, "a4bf8ae33e0ea6d5eead5e5b5416a1e9b56a0c2c3b29f705410c0e1c91f5a3a2"),
    (25000, "567f1c20b0bb24b0909c3d8e185e59fae4637da0cbe3a040c675dc7490be7f79"),
    (50000, "2e70fbf835e8aff6d530b34106261dcaf89612506a1c8d2433cb24a71d9a3cbd"),
    (75000, "8cc7ff2e4564998add727d789f11dd98742df3e3b3a7eaf84af8d85d6445596a"),
    (100000, "45924d7f9288d8def0876c1b1b046c86cc19a1b738e08ec5e21ce3f548a2ffeb"),
    (125000, "4958a72d7cc088a28b7c8cd46d06f46737b8d93c7d737031de0a7030ec350484"),
    (150000, "1ef692b6df1d255611ab479ec5feb2a18b10284bb02210d4d32ef7d92796dc50"),
    (175000, "3c0bb4e13202699236f6de2a0b9ecfb13b18c89b855c9d47118c399c2e59b97f"),
    (200000, "f78b56ed7996372faed59a3369ba925eca64c26273e7646e85efc41558c6828d"),
    (225000, "9328d79e864442db23a68ab144ce23e79764628633f044e8b36fb9cdde5e7b15"),
    (250000, "ac9af86500e4bf1bd5f19909d545ba1dc9dd5b1b31cf948bf6009c707868d8ae"),
    (275000, "05411f5ce852b92645ae853dec72e0f797dfee417a6e3f84710bcb5b6b7c9e6e"),
    (300000, "d586fed0205d968798f2b0ff2e2d8c9f95e9e33600676351113ed487d511e0db"),
    (325000, "f12e9af6d9a426fd3a5f976428dd9834bd897a10da604330060fedb47266a071"),
    (350000, "6f897fa2c195235ae7bdb7b4706b5dddff459f9ba24883ddd2fdcc9559c25e49"),
    (375000, "53ce78a6129b6d42b45ac3525fafd414b83526269b246cadc5f9612c6aa3e82c"),
    (400000, "b3e88b8cb76103435453a592b8d4f72422ca4385b691e3c5a156445792d09a35"),
    (425000, "57b8a06d06f2539bd5b87fa86824444ad1bf04f7aac09b88f79071d7d352fae0"),
    (450000, "38dc6b0e7f487bf0b0cadac6482db77f5aba55763fa1e05f962b3b6ad0411c88"),
    (475000, "9e376c1d1875471f1c3f9d8632783cc18378336f952c07bd3ab94976cfce291d"),
    (500000, "1c19b0d07289f837fa4758768375847493ae59055535b2b22c2dd3edc2282dae"),
    (525000, "6fbfc94a0f54191d54516008d0c74d4150f0ff230221d3dd34eb715ce74a01b1"),
    (550000, "2f121ddfe1886561d40f19e0baa445cb6f40cbe517d961f2d72249e857df0f37") ]

/-- The member `init_default_checkpoints`. -/
def init_default_checkpoints (s : checkpoints) (nettype : network_type) : Bool × checkpoints :=
  if nettype = network_type.TESTNET then (true, s)
  else if nettype = network_type.STAGENET then (true, s)
  else ADD_CHECKPOINTS s mainnet_checkpoints

/-- Loop of `load_checkpoints_from_json` over the lines of the file. -/
def load_checkpoints_from_json_loop (prev_max_height : Nat) :
    checkpoints → List t_hashline → Bool × checkpoints
  | s, [] => (true, s)
  | s, line :: rest =>
    if line.height ≤ prev_max_height then load_checkpoints_from_json_loop prev_max_height s rest
    else
      match add_checkpoint s line.height line.hash with
      | (true, s1) => load_checkpoints_from_json_loop prev_max_height s1 rest
      | (false, s1) => (false, s1)

/-- The member `load_checkpoints_from_json`.  `get_max_height()` is called
before the file is parsed; `none` is the undefined behaviour of that call. -/
def load_checkpoints_from_json (s : checkpoints) (file : hashfile) : Option (Bool × checkpoints) :=
  match file with
  | hashfile.not_found => some (true, s)
  | hashfile.malformed =>
    match get_max_height s with
    | none => none
    | some _ => some (false, s)
  | hashfile.loaded hashes =>
    match get_max_height s with
    | none => none
    | some prev_max_height =>
      some (load_checkpoints_from_json_loop prev_max_height s hashes.hashlines)

/-- The domain lists compiled into `load_checkpoints_from_dns`. -/
def dns_urls : List String :=
  ["ck1.privatepay.online", "ck2.privatepay.online", "ck3.privatepay.online"]

def testnet_dns_urls : List String := []

def stagenet_dns_urls : List String := []

/-- Loop of `load_checkpoints_from_dns` over the records. -/
def load_checkpoints_from_dns_loop : checkpoints → List String → Bool × checkpoints
  | s, [] => (true, s)
  | s, record :: rest =>
    match std.string_find ':' record.data with
    | none => load_checkpoints_from_dns_loop s rest
    | some pos =>
      match std.stream_extract_uint64 (record.data.take pos) with
      | none => load_checkpoints_from_dns_loop s rest
      | some height =>
        let hashStr : String := String.mk (record.data.drop (pos + 1))
        match epee.parse_tpod_from_hex_string hashStr with
        | none => load_checkpoints_from_dns_loop s rest
        | some _ =>
          match add_checkpoint s height hashStr with
          | (true, s1) => load_checkpoints_from_dns_loop s1 rest
          | (false, s1) => (false, s1)

/-- The member `load_checkpoints_from_dns`.  The resolver
`tools::dns_utils::load_txt_records_from_dns` is a parameter: given the domain
list it answers its `bool` and the records it wrote. -/
def load_checkpoints_from_dns (s : checkpoints) (nettype : network_type)
    (load_txt_records_from_dns : List String → Bool × List String) : Bool × checkpoints :=
  let answer := load_txt_records_from_dns
    (if nettype = network_type.TESTNET then testnet_dns_urls
     else if nettype = network_type.STAGENET then stagenet_dns_urls
     else dns_urls)
  if ¬ answer.1 then (true, s)
  else load_checkpoints_from_dns_loop s answer.2

/-- The member `load_new_checkpoints`; `result &= ...` does not short-circuit. -/
def load_new_checkpoints (s : checkpoints) (file : hashfile) (nettype : network_type)
    (dns : Bool) (load_txt_records_from_dns : List String → Bool × List String) :
    Option (Bool × checkpoints) :=
  match load_checkpoints_from_json s file with
  | none => none
  | some (result, s1) =>
    if dns then
      match load_checkpoints_from_dns s1 nettype load_txt_records_from_dns with
      | (r2, s2) => some (result && r2, s2)
    else some (result, s1)

end cryptonote

/-! ## Sample values -/

namespace cryptonote

/-- The hash whose 32 bytes all equal `b`. -/
def sample_hash (b : Fin 256) : crypto.hash := ⟨List.replicate 32 b, List.length_replicate 32 b⟩

/-- Hex string of `sample_hash 0xaa`. -/
def hex_aa : String := "aaaaaaaaaaaaaaaaaaaaaaaaaaaaaaaaaaaaaaaaaaaaaaaaaaaaaaaaaaaaaaaa"

/-- Hex string of `sample_hash 0xbb`. -/
def hex_bb : String := "bbbbbbbbbbbbbbbbbbbbbbbbbbbbbbbbbbbbbbbbbbbbbbbbbbbbbbbbbbbbbbbb"

/-- Hex string of `sample_hash 0xcc`. -/
def hex_cc : String := "cccccccccccccccccccccccccccccccccccccccccccccccccccccccccccccccc"

/-- A store with checkpoints at the heights 10, 20 and 30. -/
def store_10_20_30 (h10 h20 h30 : crypto.hash) : checkpoints :=
  ⟨[(10, h10), (20, h20), (30, h30)], by simp [map.ordered]⟩

/-- A store with one checkpoint. -/
def store_single (height : Nat) (h : crypto.hash) : checkpoints :=
  ⟨[(height, h)], by simp [map.ordered]⟩

/-- The three tests the body of the loop of `load_checkpoints_from_dns` makes
before it reaches `ADD_CHECKPOINT`: true when the record has no ':' or the text
before the first ':' does not extract as a `uint64_t` or the text after it does
not decode as a hash, the cases in which the body does nothing. -/
def dns_record_unparsable (record : String) : Bool :=
  match std.string_find ':' record.data with
  | none => true
  | some pos =>
    (std.stream_extract_uint64 (record.data.take pos)).isNone ||
      (epee.parse_tpod_from_hex_string (String.mk (record.data.drop (pos + 1)))).isNone

/-- The domain list `load_checkpoints_from_dns` hands to the resolver: the
conditional expression of its call, by network. -/
def dns_urls_for (nettype : network_type) : List String :=
  if nettype = network_type.TESTNET then testnet_dns_urls
  else if nettype = network_type.STAGENET then stagenet_dns_urls
  else dns_urls

/-- The last step of `std.stream_extract_uint64`, after white space and sign:
the value of the leading digits of `digits`, negated when `neg`. -/
def extract_signed (neg : Bool) (digits : List Char) : Option Nat :=
  if digits.takeWhile std.isdigit = [] then none
  else if 2 ^ 64 ≤ std.digits_value (digits.takeWhile std.isdigit) then none
  else if neg = true then
    some ((2 ^ 64 - std.digits_value (digits.takeWhile std.isdigit)) % 2 ^ 64)
  else some (std.digits_value (digits.takeWhile std.isdigit))

/-- The texts from which `ss >> height` extracts the value `k`, in words:
white space, then at most one sign, then one or more decimal digits whose
value is below `2 ^ 64`, then anything that does not begin with a digit; `k` is
the value of the digits, negated modulo `2 ^ 64` after a minus sign. -/
def height_text_form (text : List Char) (k : Nat) : Prop :=
  ∃ ws sign ds tail : List Char,
    text = ws ++ (sign ++ (ds ++ tail)) ∧
    (∀ c ∈ ws, std.isspace c = true) ∧
    (sign = [] ∨ sign = ['+'] ∨ sign = ['-']) ∧
    ds ≠ [] ∧ (∀ c ∈ ds, std.isdigit c = true) ∧
    (∀ c, tail.head? = some c → std.isdigit c = false) ∧
    std.digits_value ds < 2 ^ 64 ∧
    k = if sign = ['-'] then (2 ^ 64 - std.digits_value ds) % 2 ^ 64 else std.digits_value ds

/-- The records from which `load_checkpoints_from_dns` reaches
`ADD_CHECKPOINT(k, hashStr)`, in words: the text before the first ':' has the
form above with value `k`, and the text after it, `hashStr`, is 64 hexadecimal
characters. -/
def dns_record_form (record : String) (k : Nat) (hashStr : String) : Prop :=
  ∃ before after : List Char,
    record.data = before ++ ':' :: after ∧ ':' ∉ before ∧
    height_text_form before k ∧
    after.length = 64 ∧ (∀ c ∈ after, (epee.hex_value c).isSome = true) ∧
    hashStr = String.mk after

/-- The lower-case hexadecimal digit of a value below 16. -/
def hex_digit (n : Nat) : Char :=
  Char.ofNat (if n < 10 then 48 + n else 87 + n)

/-- Two hexadecimal digits a byte. -/
def hex_of_bytes : List (Fin 256) → List Char
  | [] => []
  | b :: rest => hex_digit (b.val / 16) :: hex_digit (b.val % 16) :: hex_of_bytes rest

/-- A hex string that decodes to the hash `h`. -/
def hex_of_hash (h : crypto.hash) : String := String.mk (hex_of_bytes h.data)

end cryptonote

/-! ## Facts about the container -/

namespace map

theorem mem_of_find {m : List (Nat × crypto.hash)} {k : Nat} {v : crypto.hash}
    (h : find m k = some v) : (k, v) ∈ m := by
  induction m with
  | nil => simp [find] at h
  | cons p rest ih =>
    unfold find at h
    by_cases hk : p.1 = k
    · rw [if_pos hk] at h
      have hv : p.2 = v := Option.some.inj h
      have hp : p = (k, v) := Prod.ext hk hv
      rw [hp]; exact List.mem_cons_self _ _
    · rw [if_neg hk] at h
      exact List.mem_cons_of_mem _ (ih h)

theorem find_of_mem {m : List (Nat × crypto.hash)} (hm : ordered m) {k : Nat} {v : crypto.hash}
    (h : (k, v) ∈ m) : find m k = some v := by
  induction m with
  | nil => simp at h
  | cons p rest ih =>
    have hm2 := List.pairwise_cons.1 hm
    unfold find
    rcases List.mem_cons.1 h with hp | hrest
    · rw [← hp]; simp
    · have hlt : p.1 < k := hm2.1 (k, v) hrest
      rw [if_neg (Nat.ne_of_lt hlt)]
      exact ih hm2.2 hrest

theorem find_eq_some_iff {m : List (Nat × crypto.hash)} (hm : ordered m) (k : Nat)
    (v : crypto.hash) : find m k = some v ↔ (k, v) ∈ m :=
  ⟨mem_of_find, find_of_mem hm⟩

theorem find_eq_none_iff (m : List (Nat × crypto.hash)) (k : Nat) :
    find m k = none ↔ k ∉ m.map Prod.fst := by
  induction m with
  | nil => simp [find]
  | cons p rest ih =>
    unfold find
    by_cases hk : p.1 = k
    · rw [if_pos hk]; simp [hk]
    · rw [if_neg hk, ih]
      simp only [List.map_cons, List.mem_cons, not_or]
      constructor
      · intro h; exact ⟨fun e => hk e.symm, h⟩
      · intro h; exact h.2

theorem count_ne_zero_iff (m : List (Nat × crypto.hash)) (k : Nat) :
    count m k ≠ 0 ↔ k ∈ m.map Prod.fst := by
  unfold count
  cases hf : find m k with
  | none =>
    have := (find_eq_none_iff m k).1 hf
    simp [this]
  | some v =>
    have hmem := mem_of_find hf
    have : k ∈ m.map Prod.fst := List.mem_map.2 ⟨(k, v), hmem, rfl⟩
    simp [this]

theorem find_assign_same (m : List (Nat × crypto.hash)) (k : Nat) (v : crypto.hash) :
    find (assign m k v) k = some v := by
  induction m with
  | nil => simp [assign, find]
  | cons p rest ih =>
    unfold assign
    by_cases h1 : k < p.1
    · rw [if_pos h1]; simp [find]
    · rw [if_neg h1]
      by_cases h2 : k = p.1
      · rw [if_pos h2]; simp [find]
      · rw [if_neg h2]
        unfold find
        rw [if_neg (fun e => h2 e.symm)]
        exact ih

theorem find_assign_other (m : List (Nat × crypto.hash)) (k : Nat) (v : crypto.hash)
    (k2 : Nat) (hne : k2 ≠ k) : find (assign m k v) k2 = find m k2 := by
  induction m with
  | nil => simp [assign, find, Ne.symm hne]
  | cons p rest ih =>
    unfold assign
    by_cases h1 : k < p.1
    · rw [if_pos h1]
      show find ((k, v) :: p :: rest) k2 = find (p :: rest) k2
      rw [find]
      rw [if_neg (fun e : (k, v).1 = k2 => hne e.symm)]
    · rw [if_neg h1]
      by_cases h2 : k = p.1
      · rw [if_pos h2]
        rw [find, find]
        rw [if_neg (fun e : (k, v).1 = k2 => hne e.symm)]
        rw [if_neg (fun e : p.1 = k2 => hne (by rw [h2, e]))]
      · rw [if_neg h2]
        rw [find, find, ih]

theorem assign_eq_self {m : List (Nat × crypto.hash)} (hm : ordered m) {k : Nat}
    {v : crypto.hash} (h : find m k = some v) : assign m k v = m := by
  induction m with
  | nil => simp [find] at h
  | cons p rest ih =>
    have hm2 := List.pairwise_cons.1 hm
    have hmem := mem_of_find h
    unfold assign
    by_cases h1 : k < p.1
    · exfalso
      rcases List.mem_cons.1 hmem with hp | hrest
      · rw [← hp] at h1; exact Nat.lt_irrefl _ h1
      · exact Nat.lt_asymm h1 (hm2.1 (k, v) hrest)
    · rw [if_neg h1]
      by_cases h2 : k = p.1
      · rw [if_pos h2]
        unfold find at h
        rw [if_pos h2.symm] at h
        have hv : p.2 = v := Option.some.inj h
        have hp : (k, v) = p := Prod.ext h2 hv.symm
        rw [hp]
      · rw [if_neg h2]
        unfold find at h
        rw [if_neg (fun e => h2 e.symm)] at h
        rw [ih hm2.2 h]

theorem mem_assign {m : List (Nat × crypto.hash)} (hm : ordered m) (k : Nat) (v : crypto.hash)
    (k2 : Nat) (v2 : crypto.hash) :
    (k2, v2) ∈ assign m k v ↔ (k2 = k ∧ v2 = v) ∨ (k2 ≠ k ∧ (k2, v2) ∈ m) := by
  rw [← find_eq_some_iff (ordered_assign m k v hm), ← find_eq_some_iff hm]
  by_cases hk : k2 = k
  · rw [hk, find_assign_same]
    constructor
    · intro h; exact Or.inl ⟨rfl, (Option.some.inj h).symm⟩
    · rintro (⟨_, h⟩ | ⟨h, _⟩)
      · rw [h]
      · exact absurd rfl h
  · rw [find_assign_other m k v k2 hk]
    constructor
    · intro h; exact Or.inr ⟨hk, h⟩
    · rintro (⟨h, _⟩ | ⟨_, h⟩)
      · exact absurd h hk
      · exact h

theorem length_assign_fresh (m : List (Nat × crypto.hash)) (k : Nat) (v : crypto.hash)
    (h : find m k = none) : (assign m k v).length = m.length + 1 := by
  induction m with
  | nil => simp [assign]
  | cons p rest ih =>
    unfold find at h
    by_cases hk : p.1 = k
    · rw [if_pos hk] at h; simp at h
    · rw [if_neg hk] at h
      unfold assign
      by_cases h1 : k < p.1
      · rw [if_pos h1]; simp
      · rw [if_neg h1, if_neg (fun e => hk e.symm)]
        simp [ih h]

theorem upper_bound_eq_zero_iff {m : List (Nat × crypto.hash)} (hm : ordered m) (k : Nat) :
    upper_bound m k = 0 ↔ ∀ p ∈ m, k < p.1 := by
  cases m with
  | nil => simp [upper_bound]
  | cons p rest =>
    have hm2 := List.pairwise_cons.1 hm
    unfold upper_bound
    by_cases h1 : k < p.1
    · rw [if_pos h1]
      refine ⟨fun _ q hq => ?_, fun _ => rfl⟩
      rcases List.mem_cons.1 hq with rfl | hq
      · exact h1
      · exact lt_trans h1 (hm2.1 q hq)
    · rw [if_neg h1]
      refine ⟨fun h => absurd h (Nat.succ_ne_zero _), fun h => ?_⟩
      exact absurd (h p (List.mem_cons_self _ _)) h1

theorem upper_bound_pred {m : List (Nat × crypto.hash)} (hm : ordered m) (k : Nat)
    (hpos : upper_bound m k ≠ 0) :
    ∃ p, deref m (upper_bound m k - 1) = some p ∧ p ∈ m ∧ p.1 ≤ k ∧
      ∀ q ∈ m, q.1 ≤ k → q.1 ≤ p.1 := by
  induction m with
  | nil => simp [upper_bound] at hpos
  | cons p rest ih =>
    have hm2 := List.pairwise_cons.1 hm
    unfold upper_bound at hpos ⊢
    by_cases h1 : k < p.1
    · rw [if_pos h1] at hpos; exact absurd rfl hpos
    · rw [if_neg h1]
      have hpk : p.1 ≤ k := Nat.le_of_not_lt h1
      by_cases h0 : upper_bound rest k = 0
      · rw [h0]
        refine ⟨p, by simp [deref], List.mem_cons_self _ _, hpk, ?_⟩
        intro q hq hqk
        rcases List.mem_cons.1 hq with rfl | hq
        · exact Nat.le_refl _
        · have := (upper_bound_eq_zero_iff hm2.2 k).1 h0 q hq
          exact absurd hqk (Nat.not_le_of_lt this)
      · obtain ⟨p2, hd, hmem, hle, hmax⟩ := ih hm2.2 h0
        refine ⟨p2, ?_, List.mem_cons_of_mem _ hmem, hle, ?_⟩
        · obtain ⟨n, hn⟩ := Nat.exists_eq_succ_of_ne_zero h0
          rw [hn] at hd ⊢
          simpa [deref] using hd
        · intro q hq hqk
          rcases List.mem_cons.1 hq with rfl | hq
          · exact Nat.le_of_lt (hm2.1 p2 hmem)
          · exact hmax q hq hqk

theorem deref_last {m : List (Nat × crypto.hash)} (hm : ordered m) (hne : m ≠ []) :
    ∃ p, deref m (m.length - 1) = some p ∧ p ∈ m ∧ ∀ q ∈ m, q.1 ≤ p.1 := by
  induction m with
  | nil => exact absurd rfl hne
  | cons p rest ih =>
    have hm2 := List.pairwise_cons.1 hm
    by_cases hr : rest = []
    · subst hr
      refine ⟨p, by simp [deref], List.mem_cons_self _ _, ?_⟩
      intro q hq
      rw [List.mem_singleton.1 hq]
    · obtain ⟨p2, hd, hmem, hmax⟩ := ih hm2.2 hr
      have hlen : rest.length ≠ 0 := fun h => hr (List.length_eq_zero.1 h)
      obtain ⟨n, hn⟩ := Nat.exists_eq_succ_of_ne_zero hlen
      refine ⟨p2, ?_, List.mem_cons_of_mem _ hmem, ?_⟩
      · rw [hn] at hd
        simp only [List.length_cons, hn]
        simpa [deref] using hd
      · intro q hq
        rcases List.mem_cons.1 hq with rfl | hq
        · exact Nat.le_of_lt (hm2.1 p2 hmem)
        · exact hmax q hq

theorem max_element_loop_spec (rest : List (Nat × crypto.hash)) :
    ∀ (seen : List (Nat × crypto.hash)) (largest key : Nat) (pl : Nat × crypto.hash),
      seen[largest]? = some pl → pl.1 = key → (∀ q ∈ seen, q.1 ≤ key) →
      ∃ p, (seen ++ rest)[max_element_loop rest seen.length largest key]? = some p ∧
        p ∈ seen ++ rest ∧ ∀ q ∈ seen ++ rest, q.1 ≤ p.1 := by
  induction rest with
  | nil =>
    intro seen largest key pl hget hkey hmax
    refine ⟨pl, ?_, ?_, ?_⟩
    · simpa [max_element_loop] using hget
    · rw [List.append_nil]; exact List.getElem?_mem hget
    · intro q hq
      rw [List.append_nil] at hq
      rw [hkey]; exact hmax q hq
  | cons r rest ih =>
    intro seen largest key pl hget hkey hmax
    have hlen : (seen ++ [r]).length = seen.length + 1 := by simp
    have happ : seen ++ r :: rest = (seen ++ [r]) ++ rest := by simp
    unfold max_element_loop
    by_cases hlt : key < r.1
    · rw [if_pos hlt, happ, ← hlen]
      apply ih (seen ++ [r]) seen.length r.1 r
      · simp
      · rfl
      · intro q hq
        rcases List.mem_append.1 hq with hq | hq
        · exact Nat.le_of_lt (Nat.lt_of_le_of_lt (hmax q hq) hlt)
        · rw [List.mem_singleton.1 hq]
    · rw [if_neg hlt, happ, ← hlen]
      apply ih (seen ++ [r]) largest key pl
      · have hl : largest < seen.length := by
          by_contra hge
          rw [List.getElem?_eq_none (Nat.le_of_not_lt hge)] at hget
          simp at hget
        rw [List.getElem?_append_left hl]
        exact hget
      · exact hkey
      · intro q hq
        rcases List.mem_append.1 hq with hq | hq
        · exact hmax q hq
        · rw [List.mem_singleton.1 hq]; exact Nat.le_of_not_lt hlt

theorem max_element_spec {m : List (Nat × crypto.hash)} (hne : m ≠ []) :
    ∃ p, deref m (max_element m) = some p ∧ p ∈ m ∧ ∀ q ∈ m, q.1 ≤ p.1 := by
  cases m with
  | nil => exact absurd rfl hne
  | cons p rest =>
    have := max_element_loop_spec rest [p] 0 p.1 p rfl rfl
      (fun q hq => by rw [List.mem_singleton.1 hq])
    simpa [deref, max_element] using this

theorem mem_unique {m : List (Nat × crypto.hash)} (hm : ordered m) {k : Nat}
    {a b : crypto.hash} (ha : (k, a) ∈ m) (hb : (k, b) ∈ m) : a = b := by
  have h1 := find_of_mem hm ha
  have h2 := find_of_mem hm hb
  rw [h1] at h2
  exact Option.some.inj h2

end map

/-! ## `add_checkpoint` -/

namespace cryptonote

theorem add_checkpoint_malformed (s : checkpoints) (height : Nat) (hash_str : String)
    (hparse : epee.parse_tpod_from_hex_string hash_str = none) :
    add_checkpoint s height hash_str = (false, s) := by
  unfold add_checkpoint
  rw [hparse]

theorem add_checkpoint_fresh (s : checkpoints) (height : Nat) (hash_str : String)
    (h : crypto.hash) (hparse : epee.parse_tpod_from_hex_string hash_str = some h)
    (hfresh : map.find s.m_points height = none) :
    add_checkpoint s height hash_str = (true, s.assign height h) := by
  unfold add_checkpoint
  rw [hparse]
  have hc : ¬ (map.count s.m_points height ≠ 0) := by
    unfold map.count; rw [hfresh]; simp
  simp only []
  rw [if_neg (fun hh => hc hh.1)]

theorem add_checkpoint_conflict (s : checkpoints) (height : Nat) (hash_str : String)
    (h stored : crypto.hash) (hparse : epee.parse_tpod_from_hex_string hash_str = some h)
    (hstored : map.find s.m_points height = some stored) (hne : h ≠ stored) :
    add_checkpoint s height hash_str = (false, s) := by
  unfold add_checkpoint
  rw [hparse]
  have hc : map.count s.m_points height ≠ 0 := by
    unfold map.count; rw [hstored]; simp
  simp only []
  rw [if_pos ⟨hc, by rw [hstored]; exact fun e => hne (Option.some.inj e)⟩]

theorem add_checkpoint_same (s : checkpoints) (height : Nat) (hash_str : String)
    (h : crypto.hash) (hparse : epee.parse_tpod_from_hex_string hash_str = some h)
    (hstored : map.find s.m_points height = some h) :
    add_checkpoint s height hash_str = (true, s) := by
  unfold add_checkpoint
  rw [hparse]
  simp only []
  rw [if_neg (fun hh => hh.2 hstored.symm)]
  have : s.assign height h = s :=
    checkpoints.ext_points (map.assign_eq_self s.ordered hstored)
  rw [this]

/-- Whenever `add_checkpoint` returns true for a string that decodes to `h`,
the object it leaves maps the height to `h`. -/
theorem add_checkpoint_true_find (s : checkpoints) (height : Nat) (hash_str : String)
    (h : crypto.hash) (hparse : epee.parse_tpod_from_hex_string hash_str = some h)
    (hok : (add_checkpoint s height hash_str).1 = true) :
    map.find (add_checkpoint s height hash_str).2.m_points height = some h := by
  cases hf : map.find s.m_points height with
  | none =>
    rw [add_checkpoint_fresh s height hash_str h hparse hf]
    exact map.find_assign_same _ _ _
  | some stored =>
    by_cases he : h = stored
    · rw [← he] at hf
      rw [add_checkpoint_same s height hash_str h hparse hf]
      exact hf
    · rw [add_checkpoint_conflict s height hash_str h stored hparse hf he] at hok
      simp at hok

/-- C1. At a height that is already in the store and for a hash string that
decodes, `add_checkpoint` returns true exactly when the decoded hash is the
stored one, and the store it leaves is the store it was given.  Hence: on a
store without the height the first insertion succeeds; after a successful
insertion, inserting the same pair again succeeds and leaves the store as the
first insertion left it; and inserting a different hash at that height fails,
leaves the store as it was and the first hash still stored. -/
theorem add_checkpoint_existing_height (s : checkpoints) (height : Nat)
    (strA strB : String) (hashA hashB : crypto.hash)
    (hA : epee.parse_tpod_from_hex_string strA = some hashA)
    (hB : epee.parse_tpod_from_hex_string strB = some hashB) :
    (∀ stored, (height, stored) ∈ s.m_points →
        ((add_checkpoint s height strA).1 = true ↔ hashA = stored) ∧
        (add_checkpoint s height strA).2 = s) ∧
    (height ∉ s.m_points.map Prod.fst → (add_checkpoint s height strA).1 = true) ∧
    ((add_checkpoint s height strA).1 = true →
        add_checkpoint (add_checkpoint s height strA).2 height strA =
          (true, (add_checkpoint s height strA).2)) ∧
    (hashA ≠ hashB → (add_checkpoint s height strA).1 = true →
        add_checkpoint (add_checkpoint s height strA).2 height strB =
          (false, (add_checkpoint s height strA).2) ∧
        (height, hashA) ∈ (add_checkpoint s height strA).2.m_points ∧
        ∀ v, (height, v) ∈ (add_checkpoint s height strA).2.m_points → v = hashA) := by
  refine ⟨?_, ?_, ?_, ?_⟩
  · intro stored hmem
    have hf := map.find_of_mem s.ordered hmem
    by_cases he : hashA = stored
    · rw [← he] at hf
      rw [add_checkpoint_same s height strA hashA hA hf]
      simp [he]
    · rw [add_checkpoint_conflict s height strA hashA stored hA hf he]
      simp [he]
  · intro hfresh
    rw [add_checkpoint_fresh s height strA hashA hA ((map.find_eq_none_iff _ _).2 hfresh)]
  · intro hok
    exact add_checkpoint_same _ height strA hashA hA
      (add_checkpoint_true_find s height strA hashA hA hok)
  · intro hne hok
    have hf := add_checkpoint_true_find s height strA hashA hA hok
    refine ⟨?_, map.mem_of_find hf, ?_⟩
    · exact add_checkpoint_conflict _ height strB hashB hashA hB hf (fun e => hne e.symm)
    · intro v hv
      have hv2 := map.find_of_mem (add_checkpoint s height strA).2.ordered hv
      rw [hf] at hv2
      exact (Option.some.inj hv2).symm

/-- C5. At a height that is not in the store and for a hash string that
decodes, `add_checkpoint` returns true and the store it leaves holds exactly
the old entries and the new pair. -/
theorem add_checkpoint_new_height (s : checkpoints) (height : Nat) (hash_str : String)
    (h : crypto.hash) (hparse : epee.parse_tpod_from_hex_string hash_str = some h)
    (hfresh : height ∉ s.m_points.map Prod.fst) :
    (add_checkpoint s height hash_str).1 = true ∧
    (∀ k v, (k, v) ∈ (add_checkpoint s height hash_str).2.m_points ↔
        (k = height ∧ v = h) ∨ (k, v) ∈ s.m_points) ∧
    (add_checkpoint s height hash_str).2.m_points.length = s.m_points.length + 1 := by
  have hnone := (map.find_eq_none_iff _ _).2 hfresh
  rw [add_checkpoint_fresh s height hash_str h hparse hnone]
  refine ⟨rfl, ?_, ?_⟩
  · intro k v
    show (k, v) ∈ map.assign s.m_points height h ↔ _
    rw [map.mem_assign s.ordered]
    constructor
    · rintro (hh | ⟨_, hh⟩)
      · exact Or.inl hh
      · exact Or.inr hh
    · rintro (hh | hh)
      · exact Or.inl hh
      · refine Or.inr ⟨?_, hh⟩
        intro e
        apply hfresh
        rw [← e]
        exact List.mem_map.2 ⟨(k, v), hh, rfl⟩
  · show (map.assign s.m_points height h).length = _
    exact map.length_assign_fresh _ _ _ hnone

/-- Witness of C1. -/
theorem add_checkpoint_existing_height_witness :
    epee.parse_tpod_from_hex_string hex_aa = some (sample_hash 0xaa) ∧
    epee.parse_tpod_from_hex_string hex_bb = some (sample_hash 0xbb) ∧
    (20, sample_hash 0xaa) ∈ (store_single 20 (sample_hash 0xaa)).m_points ∧
    (((add_checkpoint (store_single 20 (sample_hash 0xaa)) 20 hex_aa).1 = true ↔
        sample_hash 0xaa = sample_hash 0xaa) ∧
      (add_checkpoint (store_single 20 (sample_hash 0xaa)) 20 hex_aa).2 =
        store_single 20 (sample_hash 0xaa)) :=
  ⟨by decide, by decide, by decide,
    (add_checkpoint_existing_height (store_single 20 (sample_hash 0xaa)) 20 hex_aa hex_bb
      (sample_hash 0xaa) (sample_hash 0xbb) (by decide) (by decide)).1
      (sample_hash 0xaa) (by decide)⟩

/-- Witness of C5. -/
theorem add_checkpoint_new_height_witness :
    epee.parse_tpod_from_hex_string hex_bb = some (sample_hash 0xbb) ∧
    25 ∉ (store_10_20_30 (sample_hash 1) (sample_hash 2) (sample_hash 3)).m_points.map Prod.fst ∧
    (add_checkpoint (store_10_20_30 (sample_hash 1) (sample_hash 2) (sample_hash 3)) 25 hex_bb).1
      = true :=
  ⟨by decide, by decide,
    (add_checkpoint_new_height (store_10_20_30 (sample_hash 1) (sample_hash 2) (sample_hash 3))
      25 hex_bb (sample_hash 0xbb) (by decide) (by decide)).1⟩

end cryptonote

/-! ## The read-only queries -/

namespace cryptonote

/-- C2. The result of `is_alternative_block_allowed` is always defined; it is
false for candidate height 0; for a non-zero candidate it is true when no
checkpoint lies at or below the chain height, and otherwise it is true exactly
when the candidate is above the greatest checkpoint height at or below the
chain height.  With checkpoints at 10, 20 and 30: (25, 15) is false, (25, 25)
is true and (5, 1) is true. -/
theorem is_alternative_block_allowed_decision (s : checkpoints)
    (chain_height candidate_height : Nat) :
    (is_alternative_block_allowed s chain_height candidate_height).isSome = true ∧
    (candidate_height = 0 →
        is_alternative_block_allowed s chain_height candidate_height = some false) ∧
    (candidate_height ≠ 0 → (∀ p ∈ s.m_points, ¬ p.1 ≤ chain_height) →
        is_alternative_block_allowed s chain_height candidate_height = some true) ∧
    (candidate_height ≠ 0 → ∀ g, g ∈ s.m_points.map Prod.fst → g ≤ chain_height →
        (∀ p ∈ s.m_points, p.1 ≤ chain_height → p.1 ≤ g) →
        is_alternative_block_allowed s chain_height candidate_height =
          some (decide (g < candidate_height))) ∧
    (∀ h10 h20 h30,
        is_alternative_block_allowed (store_10_20_30 h10 h20 h30) 25 15 = some false ∧
        is_alternative_block_allowed (store_10_20_30 h10 h20 h30) 25 25 = some true ∧
        is_alternative_block_allowed (store_10_20_30 h10 h20 h30) 5 1 = some true) := by
  refine ⟨?_, ?_, ?_, ?_, ?_⟩
  · unfold is_alternative_block_allowed
    by_cases hc : 0 = candidate_height
    · rw [if_pos hc]; rfl
    · rw [if_neg hc]
      by_cases h0 : map.upper_bound s.m_points chain_height = 0
      · simp [h0]
      · obtain ⟨p, hd, _⟩ := map.upper_bound_pred s.ordered chain_height h0
        simp [h0, hd]
  · intro hc
    unfold is_alternative_block_allowed
    rw [if_pos hc.symm]
  · intro hc hnone
    unfold is_alternative_block_allowed
    rw [if_neg (fun e => hc e.symm)]
    have h0 : map.upper_bound s.m_points chain_height = 0 :=
      (map.upper_bound_eq_zero_iff s.ordered chain_height).2
        (fun p hp => Nat.lt_of_not_le (hnone p hp))
    simp [h0]
  · intro hc g hg hgle hgmax
    unfold is_alternative_block_allowed
    rw [if_neg (fun e => hc e.symm)]
    obtain ⟨q, hq, hq1⟩ := List.mem_map.1 hg
    have h0 : map.upper_bound s.m_points chain_height ≠ 0 := by
      intro h0
      have := (map.upper_bound_eq_zero_iff s.ordered chain_height).1 h0 q hq
      rw [hq1] at this
      exact Nat.not_le_of_lt this hgle
    obtain ⟨p, hd, hmem, hple, hpmax⟩ := map.upper_bound_pred s.ordered chain_height h0
    have hpg : p.1 = g := by
      apply Nat.le_antisymm
      · exact hgmax p hmem hple
      · have := hpmax q hq (by rw [hq1]; exact hgle)
        rw [hq1] at this
        exact this
    simp [h0, hd, hpg]
  · intro h10 h20 h30
    exact ⟨rfl, rfl, rfl⟩

/-- C3. `check_block` returns (true, false) at a height without a checkpoint and
(hash equals the stored hash, true) at a height with one; being a `const`
member it has no other effect.  With checkpoints at 10, 20 and 30:
(20, hash of 20) gives (true, true), (20, any other hash) gives (false, true)
and (15, any hash) gives (true, false). -/
theorem check_block_result (s : checkpoints) (height : Nat) (h : crypto.hash) :
    (height ∉ s.m_points.map Prod.fst → check_block s height h = (true, false)) ∧
    (∀ stored, (height, stored) ∈ s.m_points →
        check_block s height h = (decide (h = stored), true)) ∧
    (∀ h10 h20 h30,
        check_block (store_10_20_30 h10 h20 h30) 20 h20 = (true, true) ∧
        (h ≠ h20 → check_block (store_10_20_30 h10 h20 h30) 20 h = (false, true)) ∧
        check_block (store_10_20_30 h10 h20 h30) 15 h = (true, false)) := by
  have absent : ∀ (t : checkpoints) (k : Nat) (x : crypto.hash),
      k ∉ t.m_points.map Prod.fst → check_block t k x = (true, false) := by
    intro t k x hk
    unfold check_block
    rw [(map.find_eq_none_iff _ _).2 hk]
  have present : ∀ (t : checkpoints) (k : Nat) (x stored : crypto.hash),
      (k, stored) ∈ t.m_points → check_block t k x = (decide (x = stored), true) := by
    intro t k x stored hk
    unfold check_block
    rw [map.find_of_mem t.ordered hk]
    by_cases he : stored = x
    · simp [he]
    · have he2 : ¬ x = stored := fun e => he e.symm
      simp [he, he2]
  refine ⟨absent s height h, present s height h, ?_⟩
  intro h10 h20 h30
  refine ⟨?_, ?_, ?_⟩
  · rw [present _ 20 h20 h20 (by simp [store_10_20_30])]
    simp
  · intro hne
    rw [present _ 20 h h20 (by simp [store_10_20_30])]
    simp [hne]
  · exact absent _ 15 h (by simp [store_10_20_30])

/-- C4. `is_in_checkpoint_zone` is always defined, and it is true exactly when
the store is not empty and the height is at most the greatest height in the
store.  It is false on the empty store; with checkpoints at 10, 20 and 30 it
is true for 15 and false for 35. -/
theorem is_in_checkpoint_zone_iff (s : checkpoints) (height : Nat) :
    (is_in_checkpoint_zone s height).isSome = true ∧
    (is_in_checkpoint_zone s height = some true ↔
        s.m_points ≠ [] ∧
        ∃ M, M ∈ s.m_points.map Prod.fst ∧ (∀ p ∈ s.m_points, p.1 ≤ M) ∧ height ≤ M) ∧
    is_in_checkpoint_zone checkpoints.new height = some false ∧
    (∀ h10 h20 h30,
        is_in_checkpoint_zone (store_10_20_30 h10 h20 h30) 15 = some true ∧
        is_in_checkpoint_zone (store_10_20_30 h10 h20 h30) 35 = some false) := by
  refine ⟨?_, ?_, rfl, fun _ _ _ => ⟨rfl, rfl⟩⟩
  · unfold is_in_checkpoint_zone
    by_cases he : s.m_points = []
    · simp [he]
    · obtain ⟨p, hd, _⟩ := map.deref_last s.ordered he
      simp [he, hd]
  · unfold is_in_checkpoint_zone
    by_cases he : s.m_points = []
    · simp [he]
    · obtain ⟨p, hd, hmem, hmax⟩ := map.deref_last s.ordered he
      have hemp : s.m_points.isEmpty = false := by
        cases hs : s.m_points with
        | nil => exact absurd hs he
        | cons _ _ => rfl
      rw [hemp, hd]
      simp only [Bool.false_eq_true, if_false, Option.map_some', Option.some.injEq,
        decide_eq_true_eq]
      constructor
      · intro hle
        exact ⟨he, p.1, List.mem_map.2 ⟨p, hmem, rfl⟩, hmax, hle⟩
      · rintro ⟨_, M, hMmem, _, hle⟩
        obtain ⟨q, hq, hq1⟩ := List.mem_map.1 hMmem
        rw [← hq1] at hle
        exact le_trans hle (hmax q hq)

theorem check_for_conflicts_loop_iff (s : checkpoints) (l : List (Nat × crypto.hash)) :
    check_for_conflicts_loop s l = true ↔
      ∀ pt ∈ l, ∀ a, (pt.1, a) ∈ s.m_points → a = pt.2 := by
  induction l with
  | nil => simp [check_for_conflicts_loop]
  | cons pt rest ih =>
    unfold check_for_conflicts_loop
    by_cases hc : map.count s.m_points pt.1 ≠ 0 ∧ ¬ (some pt.2 = map.find s.m_points pt.1)
    · rw [if_pos hc]
      simp only [Bool.false_eq_true, false_iff]
      intro hall
      cases hf : map.find s.m_points pt.1 with
      | none =>
        apply hc.1
        unfold map.count; rw [hf]; rfl
      | some a =>
        have := hall pt (List.mem_cons_self _ _) a (map.mem_of_find hf)
        apply hc.2
        rw [hf, this]
    · rw [if_neg hc, ih]
      constructor
      · intro hrest q hq a ha
        rcases List.mem_cons.1 hq with rfl | hq
        · have hf := map.find_of_mem s.ordered ha
          by_contra hne
          apply hc
          refine ⟨?_, ?_⟩
          · unfold map.count; rw [hf]; simp
          · rw [hf]; exact fun e => hne (Option.some.inj e).symm
        · exact hrest q hq a ha
      · intro hall q hq a ha
        exact hall q (List.mem_cons_of_mem _ hq) a ha

/-- C6. `check_for_conflicts` returns true exactly when every height present in
both stores carries the same hash in both; being a `const` member taking a
`const` reference it changes neither.  Stores that differ at height 20 give
false; a store sharing only height 20, with the same hash, gives true. -/
theorem check_for_conflicts_iff (s other : checkpoints) :
    (check_for_conflicts s other = true ↔
        ∀ height a b, (height, a) ∈ s.m_points → (height, b) ∈ other.m_points → a = b) ∧
    (∀ a b, (20, a) ∈ s.m_points → (20, b) ∈ other.m_points → a ≠ b →
        check_for_conflicts s other = false) ∧
    (∀ h10 h20 h30,
        check_for_conflicts (store_10_20_30 h10 h20 h30) (store_single 20 h20) = true ∧
        check_for_conflicts (store_single 20 h20) (store_10_20_30 h10 h20 h30) = true) := by
  have main : ∀ t u : checkpoints, check_for_conflicts t u = true ↔
      ∀ height a b, (height, a) ∈ t.m_points → (height, b) ∈ u.m_points → a = b := by
    intro t u
    unfold check_for_conflicts get_points
    rw [check_for_conflicts_loop_iff]
    constructor
    · intro h height a b ha hb
      exact h (height, b) hb a ha
    · intro h pt hpt a ha
      exact h pt.1 a pt.2 ha hpt
  refine ⟨main s other, ?_, ?_⟩
  · intro a b ha hb hne
    cases hcheck : check_for_conflicts s other with
    | false => rfl
    | true => exact absurd ((main s other).1 hcheck 20 a b ha hb) hne
  · intro h10 h20 h30
    refine ⟨(main _ _).2 ?_, (main _ _).2 ?_⟩
    · intro height a b ha hb
      simp only [store_single, List.mem_singleton, Prod.mk.injEq] at hb
      simp only [store_10_20_30, List.mem_cons, Prod.mk.injEq, List.mem_singleton,
        List.not_mem_nil, or_false] at ha
      obtain ⟨hk, rfl⟩ := hb
      rcases ha with ⟨h1, _⟩ | ⟨_, h2⟩ | ⟨h3, _⟩
      · omega
      · exact h2
      · omega
    · intro height a b ha hb
      simp only [store_single, List.mem_singleton, Prod.mk.injEq] at ha
      simp only [store_10_20_30, List.mem_cons, Prod.mk.injEq, List.mem_singleton,
        List.not_mem_nil, or_false] at hb
      obtain ⟨hk, rfl⟩ := ha
      rcases hb with ⟨h1, _⟩ | ⟨_, h2⟩ | ⟨h3, _⟩
      · omega
      · exact h2.symm
      · omega

/-- Witness of C2. -/
theorem is_alternative_block_allowed_decision_witness :
    15 ≠ 0 ∧
    20 ∈ (store_10_20_30 (sample_hash 1) (sample_hash 2) (sample_hash 3)).m_points.map Prod.fst ∧
    20 ≤ 25 ∧
    (∀ p ∈ (store_10_20_30 (sample_hash 1) (sample_hash 2) (sample_hash 3)).m_points,
        p.1 ≤ 25 → p.1 ≤ 20) ∧
    is_alternative_block_allowed
        (store_10_20_30 (sample_hash 1) (sample_hash 2) (sample_hash 3)) 25 15 =
      some (decide (20 < 15)) :=
  ⟨by decide, by decide, by decide, by decide,
    (is_alternative_block_allowed_decision
      (store_10_20_30 (sample_hash 1) (sample_hash 2) (sample_hash 3)) 25 15).2.2.2.1
      (by decide) 20 (by decide) (by decide) (by decide)⟩

/-- Witness of C3. -/
theorem check_block_result_witness :
    (20, sample_hash 2) ∈
        (store_10_20_30 (sample_hash 1) (sample_hash 2) (sample_hash 3)).m_points ∧
    check_block (store_10_20_30 (sample_hash 1) (sample_hash 2) (sample_hash 3)) 20
        (sample_hash 3) = (decide (sample_hash 3 = sample_hash 2), true) :=
  ⟨by decide,
    (check_block_result (store_10_20_30 (sample_hash 1) (sample_hash 2) (sample_hash 3)) 20
      (sample_hash 3)).2.1 (sample_hash 2) (by decide)⟩

/-- Witness of C4. -/
theorem is_in_checkpoint_zone_iff_witness :
    is_in_checkpoint_zone (store_10_20_30 (sample_hash 1) (sample_hash 2) (sample_hash 3)) 15 =
      some true :=
  (is_in_checkpoint_zone_iff
    (store_10_20_30 (sample_hash 1) (sample_hash 2) (sample_hash 3)) 15).2.1.2
    ⟨by decide, 30, by decide, by decide, by decide⟩

/-- Witness of C6. -/
theorem check_for_conflicts_iff_witness :
    (20, sample_hash 2) ∈
        (store_10_20_30 (sample_hash 1) (sample_hash 2) (sample_hash 3)).m_points ∧
    (20, sample_hash 9) ∈ (store_single 20 (sample_hash 9)).m_points ∧
    sample_hash 2 ≠ sample_hash 9 ∧
    check_for_conflicts (store_10_20_30 (sample_hash 1) (sample_hash 2) (sample_hash 3))
      (store_single 20 (sample_hash 9)) = false :=
  ⟨by decide, by decide, by decide,
    (check_for_conflicts_iff (store_10_20_30 (sample_hash 1) (sample_hash 2) (sample_hash 3))
      (store_single 20 (sample_hash 9))).2.1 (sample_hash 2) (sample_hash 9)
      (by decide) (by decide) (by decide)⟩

end cryptonote

/-! ## The loaders -/

namespace cryptonote

theorem get_max_height_eq (s : checkpoints) (M : Nat) (hM : M ∈ s.m_points.map Prod.fst)
    (hmax : ∀ p ∈ s.m_points, p.1 ≤ M) : get_max_height s = some M := by
  have hne : s.m_points ≠ [] := by
    intro he; rw [he] at hM; simp at hM
  obtain ⟨p, hd, hmem, hp⟩ := map.max_element_spec hne
  obtain ⟨q, hq, hq1⟩ := List.mem_map.1 hM
  have : p.1 = M := Nat.le_antisymm (hmax p hmem) (by rw [← hq1]; exact hp q hq)
  unfold get_max_height
  rw [hd, ← this]
  rfl

theorem get_max_height_defined (s : checkpoints) (hne : s.m_points ≠ []) :
    ∃ M, get_max_height s = some M ∧ M ∈ s.m_points.map Prod.fst ∧
      ∀ p ∈ s.m_points, p.1 ≤ M := by
  obtain ⟨p, hd, hmem, hp⟩ := map.max_element_spec hne
  refine ⟨p.1, ?_, List.mem_map.2 ⟨p, hmem, rfl⟩, hp⟩
  unfold get_max_height
  rw [hd]
  rfl

theorem add_checkpoint_keeps (s : checkpoints) (k : Nat) (str : String) (height : Nat)
    (h : crypto.hash) (hmem : (height, h) ∈ s.m_points) :
    (height, h) ∈ (add_checkpoint s k str).2.m_points := by
  unfold add_checkpoint
  cases hparse : epee.parse_tpod_from_hex_string str with
  | none => exact hmem
  | some v =>
    simp only []
    split_ifs with hc
    · exact hmem
    · show (height, h) ∈ map.assign s.m_points k v
      rw [map.mem_assign s.ordered]
      by_cases hk : height = k
      · left
        refine ⟨hk, ?_⟩
        have hf := map.find_of_mem s.ordered hmem
        rw [hk] at hf
        by_contra hne
        apply hc
        refine ⟨?_, ?_⟩
        · unfold map.count; rw [hf]; simp
        · rw [hf]; exact fun e => hne (Option.some.inj e).symm
      · right; exact ⟨hk, hmem⟩

theorem ADD_CHECKPOINTS_keeps (table : List (Nat × String)) :
    ∀ (s : checkpoints) (height : Nat) (h : crypto.hash), (height, h) ∈ s.m_points →
      (height, h) ∈ (ADD_CHECKPOINTS s table).2.m_points := by
  induction table with
  | nil => intro s height h hmem; exact hmem
  | cons row rest ih =>
    intro s height h hmem
    obtain ⟨k, str⟩ := row
    have hkeep := add_checkpoint_keeps s k str height h hmem
    unfold ADD_CHECKPOINTS
    cases hadd : add_checkpoint s k str with
    | mk r s1 =>
      rw [hadd] at hkeep
      cases r with
      | true => exact ih s1 height h hkeep
      | false => exact hkeep

theorem load_checkpoints_from_json_loop_keeps (prev : Nat) (lines : List t_hashline) :
    ∀ (s : checkpoints) (height : Nat) (h : crypto.hash), (height, h) ∈ s.m_points →
      (height, h) ∈ (load_checkpoints_from_json_loop prev s lines).2.m_points := by
  induction lines with
  | nil => intro s height h hmem; exact hmem
  | cons line rest ih =>
    intro s height h hmem
    unfold load_checkpoints_from_json_loop
    by_cases hle : line.height ≤ prev
    · rw [if_pos hle]; exact ih s height h hmem
    · rw [if_neg hle]
      have hkeep := add_checkpoint_keeps s line.height line.hash height h hmem
      cases hadd : add_checkpoint s line.height line.hash with
      | mk r s1 =>
        rw [hadd] at hkeep
        cases r with
        | true => exact ih s1 height h hkeep
        | false => exact hkeep

theorem load_checkpoints_from_dns_loop_keeps (records : List String) :
    ∀ (s : checkpoints) (height : Nat) (h : crypto.hash), (height, h) ∈ s.m_points →
      (height, h) ∈ (load_checkpoints_from_dns_loop s records).2.m_points := by
  induction records with
  | nil => intro s height h hmem; exact hmem
  | cons record rest ih =>
    intro s height h hmem
    unfold load_checkpoints_from_dns_loop
    cases std.string_find ':' record.data with
    | none => exact ih s height h hmem
    | some pos =>
      simp only []
      cases std.stream_extract_uint64 (record.data.take pos) with
      | none => exact ih s height h hmem
      | some k =>
        simp only []
        cases epee.parse_tpod_from_hex_string (String.mk (record.data.drop (pos + 1))) with
        | none => exact ih s height h hmem
        | some v =>
          simp only []
          have hkeep := add_checkpoint_keeps s k (String.mk (record.data.drop (pos + 1)))
            height h hmem
          cases hadd : add_checkpoint s k (String.mk (record.data.drop (pos + 1))) with
          | mk r s1 =>
            rw [hadd] at hkeep
            cases r with
            | true => exact ih s1 height h hkeep
            | false => exact hkeep

theorem init_default_checkpoints_keeps (s : checkpoints) (nettype : network_type)
    (height : Nat) (h : crypto.hash) (hmem : (height, h) ∈ s.m_points) :
    (height, h) ∈ (init_default_checkpoints s nettype).2.m_points := by
  unfold init_default_checkpoints
  split_ifs
  · exact hmem
  · exact hmem
  · exact ADD_CHECKPOINTS_keeps _ s height h hmem

theorem load_checkpoints_from_dns_keeps (s : checkpoints) (nettype : network_type)
    (resolver : List String → Bool × List String)
    (height : Nat) (h : crypto.hash) (hmem : (height, h) ∈ s.m_points) :
    (height, h) ∈ (load_checkpoints_from_dns s nettype resolver).2.m_points := by
  unfold load_checkpoints_from_dns
  simp only []
  generalize resolver (if nettype = network_type.TESTNET then testnet_dns_urls
    else if nettype = network_type.STAGENET then stagenet_dns_urls else dns_urls) = answer
  by_cases ha : ¬ answer.1 = true
  · rw [if_pos ha]; exact hmem
  · rw [if_neg ha]; exact load_checkpoints_from_dns_loop_keeps _ s height h hmem

theorem load_checkpoints_from_json_keeps (s : checkpoints) (file : hashfile)
    (height : Nat) (h : crypto.hash) (hmem : (height, h) ∈ s.m_points) :
    ∃ r s1, load_checkpoints_from_json s file = some (r, s1) ∧ (height, h) ∈ s1.m_points := by
  have hne : s.m_points ≠ [] := List.ne_nil_of_mem hmem
  obtain ⟨M, hM, _⟩ := get_max_height_defined s hne
  unfold load_checkpoints_from_json
  cases file with
  | not_found => exact ⟨true, s, rfl, hmem⟩
  | malformed =>
    rw [hM]
    exact ⟨false, s, rfl, hmem⟩
  | loaded hashes =>
    rw [hM]
    exact ⟨_, _, rfl, load_checkpoints_from_json_loop_keeps M hashes.hashlines s height h hmem⟩

/-- C7. An entry of the store survives every mutating member: whatever the
arguments and whatever the result, `add_checkpoint`,
`init_default_checkpoints`, `load_checkpoints_from_json`,
`load_checkpoints_from_dns` and `load_new_checkpoints` are defined on a store
that holds the entry and leave a store that still maps its height to its hash,
and to no other hash. -/
theorem existing_entries_preserved (s : checkpoints) (height : Nat) (h : crypto.hash)
    (hmem : (height, h) ∈ s.m_points) :
    (∀ k str, (height, h) ∈ (add_checkpoint s k str).2.m_points ∧
        ∀ v, (height, v) ∈ (add_checkpoint s k str).2.m_points → v = h) ∧
    (∀ nettype, (height, h) ∈ (init_default_checkpoints s nettype).2.m_points ∧
        ∀ v, (height, v) ∈ (init_default_checkpoints s nettype).2.m_points → v = h) ∧
    (∀ file, ∃ r s1, load_checkpoints_from_json s file = some (r, s1) ∧
        (height, h) ∈ s1.m_points ∧ ∀ v, (height, v) ∈ s1.m_points → v = h) ∧
    (∀ nettype resolver,
        (height, h) ∈ (load_checkpoints_from_dns s nettype resolver).2.m_points ∧
        ∀ v, (height, v) ∈ (load_checkpoints_from_dns s nettype resolver).2.m_points → v = h) ∧
    (∀ file nettype dns resolver, ∃ r s1,
        load_new_checkpoints s file nettype dns resolver = some (r, s1) ∧
        (height, h) ∈ s1.m_points ∧ ∀ v, (height, v) ∈ s1.m_points → v = h) := by
  have uniq : ∀ t : checkpoints, (height, h) ∈ t.m_points →
      (height, h) ∈ t.m_points ∧ ∀ v, (height, v) ∈ t.m_points → v = h :=
    fun t ht => ⟨ht, fun v hv => map.mem_unique t.ordered hv ht⟩
  refine ⟨?_, ?_, ?_, ?_, ?_⟩
  · intro k str
    exact uniq _ (add_checkpoint_keeps s k str height h hmem)
  · intro nettype
    exact uniq _ (init_default_checkpoints_keeps s nettype height h hmem)
  · intro file
    obtain ⟨r, s1, he, hk⟩ := load_checkpoints_from_json_keeps s file height h hmem
    exact ⟨r, s1, he, uniq s1 hk⟩
  · intro nettype resolver
    exact uniq _ (load_checkpoints_from_dns_keeps s nettype resolver height h hmem)
  · intro file nettype dns resolver
    obtain ⟨r, s1, he, hk⟩ := load_checkpoints_from_json_keeps s file height h hmem
    unfold load_new_checkpoints
    rw [he]
    simp only []
    cases dns with
    | false => exact ⟨r, s1, by simp, uniq s1 hk⟩
    | true =>
      have hk2 := load_checkpoints_from_dns_keeps s1 nettype resolver height h hk
      cases hdns : load_checkpoints_from_dns s1 nettype resolver with
      | mk r2 s2 =>
        rw [hdns] at hk2
        exact ⟨r && r2, s2, by simp, uniq s2 hk2⟩

/-- Witness of C7. -/
theorem existing_entries_preserved_witness :
    (20, sample_hash 2) ∈
        (store_10_20_30 (sample_hash 1) (sample_hash 2) (sample_hash 3)).m_points ∧
    (20, sample_hash 2) ∈
        (add_checkpoint (store_10_20_30 (sample_hash 1) (sample_hash 2) (sample_hash 3))
          20 hex_bb).2.m_points :=
  ⟨by decide,
    ((existing_entries_preserved
      (store_10_20_30 (sample_hash 1) (sample_hash 2) (sample_hash 3)) 20 (sample_hash 2)
      (by decide)).1 20 hex_bb).1⟩

/-- C8. `load_checkpoints_from_json` calls `get_max_height` without a test for
emptiness: on the empty store, which is what `init_default_checkpoints` leaves
for the test and stage networks, `std::max_element` returns `end()`,
`get_max_height` dereferences it, and the load of any file that exists is
undefined. -/
theorem load_checkpoints_from_json_empty_store_undefined :
    init_default_checkpoints checkpoints.new network_type.TESTNET = (true, checkpoints.new) ∧
    init_default_checkpoints checkpoints.new network_type.STAGENET = (true, checkpoints.new) ∧
    map.max_element checkpoints.new.m_points = checkpoints.new.m_points.length ∧
    get_max_height checkpoints.new = none ∧
    (∀ hashes, load_checkpoints_from_json checkpoints.new (hashfile.loaded hashes) = none) ∧
    load_checkpoints_from_json (init_default_checkpoints checkpoints.new network_type.TESTNET).2
      (hashfile.loaded ⟨[⟨100, hex_aa⟩]⟩) = none :=
  ⟨rfl, rfl, rfl, rfl, fun _ => rfl, rfl⟩

theorem add_checkpoint_compatible (s : checkpoints) (k : Nat) (str : String) (v : crypto.hash)
    (hparse : epee.parse_tpod_from_hex_string str = some v)
    (hcompat : ∀ w, (k, w) ∈ s.m_points → w = v) :
    add_checkpoint s k str = (true, s.assign k v) := by
  unfold add_checkpoint
  rw [hparse]
  simp only []
  rw [if_neg]
  rintro ⟨hc, hne⟩
  cases hf : map.find s.m_points k with
  | none => apply hc; unfold map.count; rw [hf]; rfl
  | some w =>
    apply hne
    rw [hf, hcompat w (map.mem_of_find hf)]

theorem load_checkpoints_from_json_loop_filter (prev : Nat) (lines : List t_hashline) :
    ∀ s : checkpoints, load_checkpoints_from_json_loop prev s lines =
      load_checkpoints_from_json_loop prev s
        (lines.filter (fun line => decide (prev < line.height))) := by
  induction lines with
  | nil => intro s; rfl
  | cons line rest ih =>
    intro s
    by_cases hle : line.height ≤ prev
    · have hf : List.filter (fun l : t_hashline => decide (prev < l.height)) (line :: rest) =
          List.filter (fun l : t_hashline => decide (prev < l.height)) rest := by
        simp [List.filter_cons, Nat.not_lt_of_le hle]
      rw [hf, load_checkpoints_from_json_loop, if_pos hle]
      exact ih s
    · have hf : List.filter (fun l : t_hashline => decide (prev < l.height)) (line :: rest) =
          line :: List.filter (fun l : t_hashline => decide (prev < l.height)) rest := by
        simp [List.filter_cons, Nat.lt_of_not_le hle]
      rw [hf, load_checkpoints_from_json_loop, if_neg hle]
      conv_rhs => rw [load_checkpoints_from_json_loop, if_neg hle]
      cases add_checkpoint s line.height line.hash with
      | mk r s1 =>
        cases r with
        | true => exact ih s1
        | false => rfl

theorem load_checkpoints_from_json_loop_extends (prev : Nat) (lines : List t_hashline) :
    ∀ s : checkpoints,
      (∀ line ∈ lines, prev < line.height →
        ∃ v, epee.parse_tpod_from_hex_string line.hash = some v ∧
          (∀ w, (line.height, w) ∈ s.m_points → w = v) ∧
          ∀ line2 ∈ lines, line2.height = line.height →
            epee.parse_tpod_from_hex_string line2.hash = some v) →
      (load_checkpoints_from_json_loop prev s lines).1 = true ∧
      ∀ k v, (k, v) ∈ (load_checkpoints_from_json_loop prev s lines).2.m_points ↔
        (k, v) ∈ s.m_points ∨
        ∃ line ∈ lines, prev < line.height ∧ line.height = k ∧
          epee.parse_tpod_from_hex_string line.hash = some v := by
  induction lines with
  | nil =>
    intro s _
    refine ⟨rfl, fun k v => ?_⟩
    simp [load_checkpoints_from_json_loop]
  | cons line rest ih =>
    intro s hcompat
    unfold load_checkpoints_from_json_loop
    by_cases hle : line.height ≤ prev
    · rw [if_pos hle]
      have hrest : ∀ l ∈ rest, prev < l.height →
          ∃ v, epee.parse_tpod_from_hex_string l.hash = some v ∧
            (∀ w, (l.height, w) ∈ s.m_points → w = v) ∧
            ∀ line2 ∈ rest, line2.height = l.height →
              epee.parse_tpod_from_hex_string line2.hash = some v := by
        intro l hl hlt
        obtain ⟨v, hv, hs, hall⟩ := hcompat l (List.mem_cons_of_mem _ hl) hlt
        exact ⟨v, hv, hs, fun l2 hl2 => hall l2 (List.mem_cons_of_mem _ hl2)⟩
      obtain ⟨hok, hiff⟩ := ih s hrest
      refine ⟨hok, fun k v => ?_⟩
      rw [hiff k v]
      constructor
      · rintro (hh | ⟨l, hl, hlt, hk, hp⟩)
        · exact Or.inl hh
        · exact Or.inr ⟨l, List.mem_cons_of_mem _ hl, hlt, hk, hp⟩
      · rintro (hh | ⟨l, hl, hlt, hk, hp⟩)
        · exact Or.inl hh
        · rcases List.mem_cons.1 hl with rfl | hl
          · exact absurd hlt (Nat.not_lt_of_le hle)
          · exact Or.inr ⟨l, hl, hlt, hk, hp⟩
    · rw [if_neg hle]
      have hlt : prev < line.height := Nat.lt_of_not_le hle
      obtain ⟨v, hv, hs, hall⟩ := hcompat line (List.mem_cons_self _ _) hlt
      rw [add_checkpoint_compatible s line.height line.hash v hv hs]
      simp only []
      have hrest : ∀ l ∈ rest, prev < l.height →
          ∃ v2, epee.parse_tpod_from_hex_string l.hash = some v2 ∧
            (∀ w, (l.height, w) ∈ (s.assign line.height v).m_points → w = v2) ∧
            ∀ line2 ∈ rest, line2.height = l.height →
              epee.parse_tpod_from_hex_string line2.hash = some v2 := by
        intro l hl hlt2
        obtain ⟨v2, hv2, hs2, hall2⟩ := hcompat l (List.mem_cons_of_mem _ hl) hlt2
        refine ⟨v2, hv2, ?_, fun l2 hl2 => hall2 l2 (List.mem_cons_of_mem _ hl2)⟩
        intro w hw
        have hw2 : (l.height, w) ∈ map.assign s.m_points line.height v := hw
        rw [map.mem_assign s.ordered] at hw2
        rcases hw2 with ⟨hk, hwv⟩ | ⟨_, hin⟩
        · have := hall l (List.mem_cons_of_mem _ hl) hk
          rw [hv2] at this
          rw [hwv]; exact (Option.some.inj this).symm
        · exact hs2 w hin
      obtain ⟨hok, hiff⟩ := ih (s.assign line.height v) hrest
      refine ⟨hok, fun k w => ?_⟩
      rw [hiff k w]
      have hassign : (k, w) ∈ (s.assign line.height v).m_points ↔
          (k = line.height ∧ w = v) ∨ (k ≠ line.height ∧ (k, w) ∈ s.m_points) :=
        map.mem_assign s.ordered line.height v k w
      rw [hassign]
      constructor
      · rintro ((⟨hk, hw⟩ | ⟨_, hin⟩) | ⟨l, hl, hlt2, hk, hp⟩)
        · exact Or.inr ⟨line, List.mem_cons_self _ _, hlt, hk.symm, by rw [hw]; exact hv⟩
        · exact Or.inl hin
        · exact Or.inr ⟨l, List.mem_cons_of_mem _ hl, hlt2, hk, hp⟩
      · rintro (hin | ⟨l, hl, hlt2, hk, hp⟩)
        · by_cases hk : k = line.height
          · left; left
            refine ⟨hk, hs w ?_⟩
            rw [← hk]; exact hin
          · left; right; exact ⟨hk, hin⟩
        · rcases List.mem_cons.1 hl with rfl | hl
          · left; left
            rw [hv] at hp
            exact ⟨hk.symm, (Option.some.inj hp).symm⟩
          · right; exact ⟨l, hl, hlt2, hk, hp⟩

/-- C9. On a store whose greatest height is `M`, and for a file that exists and
parses to records of which those above `M` carry hashes that decode and agree
wherever two of them share a height (so that no `add_checkpoint` fails),
`load_checkpoints_from_json` returns true and leaves exactly the entries of the
initial store and the records above `M`; the records at or below `M` take no
part, whatever their hashes: the file without them gives the same result. -/
theorem load_checkpoints_from_json_extends (s : checkpoints) (M : Nat)
    (hashes : t_hash_json)
    (hM : M ∈ s.m_points.map Prod.fst) (hmax : ∀ p ∈ s.m_points, p.1 ≤ M)
    (hdecodes : ∀ line ∈ hashes.hashlines, M < line.height →
        (epee.parse_tpod_from_hex_string line.hash).isSome = true)
    (hagree : ∀ line ∈ hashes.hashlines, ∀ line2 ∈ hashes.hashlines, M < line.height →
        line2.height = line.height →
        epee.parse_tpod_from_hex_string line2.hash =
          epee.parse_tpod_from_hex_string line.hash) :
    (∃ s1, load_checkpoints_from_json s (hashfile.loaded hashes) = some (true, s1) ∧
      ∀ k v, (k, v) ∈ s1.m_points ↔
        (k, v) ∈ s.m_points ∨
        ∃ line ∈ hashes.hashlines, M < line.height ∧ line.height = k ∧
          epee.parse_tpod_from_hex_string line.hash = some v) ∧
    load_checkpoints_from_json s (hashfile.loaded hashes) =
      load_checkpoints_from_json s
        (hashfile.loaded ⟨hashes.hashlines.filter (fun line => decide (M < line.height))⟩) := by
  have hget := get_max_height_eq s M hM hmax
  have hcompat : ∀ line ∈ hashes.hashlines, M < line.height →
      ∃ v, epee.parse_tpod_from_hex_string line.hash = some v ∧
        (∀ w, (line.height, w) ∈ s.m_points → w = v) ∧
        ∀ line2 ∈ hashes.hashlines, line2.height = line.height →
          epee.parse_tpod_from_hex_string line2.hash = some v := by
    intro line hl hlt
    obtain ⟨v, hv⟩ := Option.isSome_iff_exists.1 (hdecodes line hl hlt)
    refine ⟨v, hv, ?_, ?_⟩
    · intro w hw
      exact absurd (hmax _ hw) (Nat.not_le_of_lt hlt)
    · intro l2 hl2 hk
      rw [hagree line hl l2 hl2 hlt hk, hv]
  obtain ⟨hok, hiff⟩ := load_checkpoints_from_json_loop_extends M hashes.hashlines s hcompat
  refine ⟨?_, ?_⟩
  · refine ⟨(load_checkpoints_from_json_loop M s hashes.hashlines).2, ?_, hiff⟩
    unfold load_checkpoints_from_json
    simp only [hget]
    rw [← hok]
  · unfold load_checkpoints_from_json
    simp only [hget]
    rw [load_checkpoints_from_json_loop_filter]

/-- Witness of C9: the record at height 20, below the maximum 30 and with a hash
other than the stored one, is skipped, and the record at height 40 is added. -/
theorem load_checkpoints_from_json_extends_witness :
    30 ∈ (store_10_20_30 (sample_hash 1) (sample_hash 2) (sample_hash 3)).m_points.map Prod.fst ∧
    (∀ p ∈ (store_10_20_30 (sample_hash 1) (sample_hash 2) (sample_hash 3)).m_points,
        p.1 ≤ 30) ∧
    load_checkpoints_from_json (store_10_20_30 (sample_hash 1) (sample_hash 2) (sample_hash 3))
        (hashfile.loaded ⟨[⟨20, hex_bb⟩, ⟨40, hex_aa⟩]⟩) =
      load_checkpoints_from_json (store_10_20_30 (sample_hash 1) (sample_hash 2) (sample_hash 3))
        (hashfile.loaded ⟨[⟨40, hex_aa⟩]⟩) :=
  ⟨by decide, by decide,
    (load_checkpoints_from_json_extends
      (store_10_20_30 (sample_hash 1) (sample_hash 2) (sample_hash 3)) 30
      ⟨[⟨20, hex_bb⟩, ⟨40, hex_aa⟩]⟩ (by decide) (by decide) (by decide) (by decide)).2⟩

/-- C10. When the file does not exist `load_checkpoints_from_json` returns true
and the store is the one it was given, for every store.  When the file exists
and does not parse, it returns false with the store unchanged on every store
that is not empty; on the empty store the call of `get_max_height` that
precedes the parsing is undefined, so nothing is returned there. -/
theorem load_checkpoints_from_json_without_records (s : checkpoints) :
    load_checkpoints_from_json s hashfile.not_found = some (true, s) ∧
    (s.m_points ≠ [] → load_checkpoints_from_json s hashfile.malformed = some (false, s)) ∧
    (s.m_points = [] → load_checkpoints_from_json s hashfile.malformed = none) ∧
    load_checkpoints_from_json checkpoints.new hashfile.malformed = none := by
  refine ⟨rfl, ?_, ?_, rfl⟩
  · intro hne
    obtain ⟨M, hM, _⟩ := get_max_height_defined s hne
    unfold load_checkpoints_from_json
    simp only [hM]
  · intro he
    have hs : s = checkpoints.new := checkpoints.ext_points he
    rw [hs]
    rfl

/-- Witness of C10. -/
theorem load_checkpoints_from_json_without_records_witness :
    (store_single 20 (sample_hash 2)).m_points ≠ [] ∧
    load_checkpoints_from_json (store_single 20 (sample_hash 2)) hashfile.malformed =
      some (false, store_single 20 (sample_hash 2)) :=
  ⟨by decide,
    (load_checkpoints_from_json_without_records (store_single 20 (sample_hash 2))).2.1
      (by decide)⟩

end cryptonote

/-! ## The DNS loader -/

namespace cryptonote

theorem load_checkpoints_from_dns_loop_skip (s : checkpoints) (record : String)
    (rest : List String) (hbad : dns_record_unparsable record = true) :
    load_checkpoints_from_dns_loop s (record :: rest) = load_checkpoints_from_dns_loop s rest := by
  unfold dns_record_unparsable at hbad
  rw [load_checkpoints_from_dns_loop]
  cases hfind : std.string_find ':' record.data with
  | none => rfl
  | some pos =>
    rw [hfind] at hbad
    simp only []
    cases hext : std.stream_extract_uint64 (record.data.take pos) with
    | none => rfl
    | some k =>
      simp only []
      cases hhex : epee.parse_tpod_from_hex_string (String.mk (record.data.drop (pos + 1))) with
      | none => rfl
      | some v =>
        simp only [hext, hhex] at hbad
        simp at hbad

theorem load_checkpoints_from_dns_loop_step (s : checkpoints) (record : String)
    (rest : List String) (pos k : Nat) (v : crypto.hash)
    (hfind : std.string_find ':' record.data = some pos)
    (hext : std.stream_extract_uint64 (record.data.take pos) = some k)
    (hhex : epee.parse_tpod_from_hex_string (String.mk (record.data.drop (pos + 1))) = some v) :
    load_checkpoints_from_dns_loop s (record :: rest) =
      if (add_checkpoint s k (String.mk (record.data.drop (pos + 1)))).1 = true then
        load_checkpoints_from_dns_loop
          (add_checkpoint s k (String.mk (record.data.drop (pos + 1)))).2 rest
      else (false, (add_checkpoint s k (String.mk (record.data.drop (pos + 1)))).2) := by
  rw [load_checkpoints_from_dns_loop]
  simp only [hfind, hext, hhex]
  cases add_checkpoint s k (String.mk (record.data.drop (pos + 1))) with
  | mk r s1 =>
    cases r with
    | true => simp
    | false => simp

theorem load_checkpoints_from_dns_loop_filter (records : List String) :
    ∀ s : checkpoints, load_checkpoints_from_dns_loop s records =
      load_checkpoints_from_dns_loop s
        (records.filter (fun record => !dns_record_unparsable record)) := by
  induction records with
  | nil => intro s; rfl
  | cons record rest ih =>
    intro s
    cases hbad : dns_record_unparsable record with
    | true =>
      have hf : List.filter (fun r => !dns_record_unparsable r) (record :: rest) =
          List.filter (fun r => !dns_record_unparsable r) rest := by
        simp [List.filter_cons, hbad]
      rw [hf, load_checkpoints_from_dns_loop_skip s record rest hbad]
      exact ih s
    | false =>
      have hf : List.filter (fun r => !dns_record_unparsable r) (record :: rest) =
          record :: List.filter (fun r => !dns_record_unparsable r) rest := by
        simp [List.filter_cons, hbad]
      rw [hf]
      unfold dns_record_unparsable at hbad
      cases hfind : std.string_find ':' record.data with
      | none => rw [hfind] at hbad; simp at hbad
      | some pos =>
        rw [hfind] at hbad
        simp only [Bool.or_eq_false_iff] at hbad
        obtain ⟨h1, h2⟩ := hbad
        cases hext : std.stream_extract_uint64 (record.data.take pos) with
        | none => rw [hext] at h1; simp at h1
        | some k =>
          cases hhex : epee.parse_tpod_from_hex_string
              (String.mk (record.data.drop (pos + 1))) with
          | none => rw [hhex] at h2; simp at h2
          | some v =>
            rw [load_checkpoints_from_dns_loop_step s record _ pos k v hfind hext hhex,
              load_checkpoints_from_dns_loop_step s record _ pos k v hfind hext hhex, ih]

theorem load_checkpoints_from_dns_loop_remove (pre : List String) (bad : String)
    (post : List String) (hbad : dns_record_unparsable bad = true) :
    ∀ s : checkpoints, load_checkpoints_from_dns_loop s (pre ++ bad :: post) =
      load_checkpoints_from_dns_loop s (pre ++ post) := by
  intro s
  rw [load_checkpoints_from_dns_loop_filter (pre ++ bad :: post),
    load_checkpoints_from_dns_loop_filter (pre ++ post)]
  have hf : List.filter (fun r => !dns_record_unparsable r) (pre ++ bad :: post) =
      List.filter (fun r => !dns_record_unparsable r) (pre ++ post) := by
    simp [List.filter_append, List.filter_cons, hbad]
  rw [hf]

/-- C11. A DNS record that fails to parse (no ':', a height part that does not
extract, or a hash part that does not decode) is skipped and the loop goes on:
`load_checkpoints_from_dns` gives the same result and the same store on a
response as on the response without its unparsable records, and as on the
response without one unparsable record at any position.  The record
"abc:deadbeef", a record without ':' and a record with a short hash are such
records. -/
theorem load_checkpoints_from_dns_skips_unparsable (s : checkpoints) (nettype : network_type) :
    (∀ resolver : List String → Bool × List String,
        load_checkpoints_from_dns s nettype resolver =
          load_checkpoints_from_dns s nettype (fun urls =>
            ((resolver urls).1,
              (resolver urls).2.filter (fun record => !dns_record_unparsable record)))) ∧
    (∀ (ok : Bool) (pre : List String) (bad : String) (post : List String),
        dns_record_unparsable bad = true →
        load_checkpoints_from_dns s nettype (fun _ => (ok, pre ++ bad :: post)) =
          load_checkpoints_from_dns s nettype (fun _ => (ok, pre ++ post))) ∧
    dns_record_unparsable "abc:deadbeef" = true ∧
    dns_record_unparsable "no separator" = true ∧
    dns_record_unparsable "12:deadbeef" = true := by
  refine ⟨?_, ?_, by decide, by decide, by decide⟩
  · intro resolver
    unfold load_checkpoints_from_dns
    simp only []
    generalize resolver (if nettype = network_type.TESTNET then testnet_dns_urls
      else if nettype = network_type.STAGENET then stagenet_dns_urls else dns_urls) = answer
    by_cases ha : ¬ answer.1 = true
    · rw [if_pos ha, if_pos ha]
    · rw [if_neg ha, if_neg ha]
      exact load_checkpoints_from_dns_loop_filter answer.2 s
  · intro ok pre bad post hbad
    unfold load_checkpoints_from_dns
    simp only []
    by_cases ha : ¬ ok = true
    · rw [if_pos ha, if_pos ha]
    · rw [if_neg ha, if_neg ha]
      exact load_checkpoints_from_dns_loop_remove pre bad post hbad s

end cryptonote

namespace cryptonote

/-- Witness of C11. -/
theorem load_checkpoints_from_dns_skips_unparsable_witness :
    dns_record_unparsable "abc:deadbeef" = true ∧
    load_checkpoints_from_dns checkpoints.new network_type.MAINNET
        (fun _ => (true, ["40:" ++ hex_aa] ++ "abc:deadbeef" :: ["50:" ++ hex_bb])) =
      load_checkpoints_from_dns checkpoints.new network_type.MAINNET
        (fun _ => (true, ["40:" ++ hex_aa] ++ ["50:" ++ hex_bb])) :=
  ⟨by decide,
    (load_checkpoints_from_dns_skips_unparsable checkpoints.new network_type.MAINNET).2.1
      true ["40:" ++ hex_aa] "abc:deadbeef" ["50:" ++ hex_bb] (by decide)⟩

theorem load_checkpoints_from_dns_eq (s : checkpoints) (nettype : network_type)
    (resolver : List String → Bool × List String) :
    load_checkpoints_from_dns s nettype resolver =
      if ¬ (resolver (dns_urls_for nettype)).1 = true then (true, s)
      else load_checkpoints_from_dns_loop s (resolver (dns_urls_for nettype)).2 := rfl

theorem load_checkpoints_from_dns_loop_conflict (pre : List String) (record : String)
    (post : List String) (pos k : Nat) (v w : crypto.hash)
    (hfind : std.string_find ':' record.data = some pos)
    (hext : std.stream_extract_uint64 (record.data.take pos) = some k)
    (hhex : epee.parse_tpod_from_hex_string (String.mk (record.data.drop (pos + 1))) = some v)
    (hne : v ≠ w) :
    ∀ s : checkpoints, (k, w) ∈ s.m_points →
      (load_checkpoints_from_dns_loop s (pre ++ record :: post)).1 = false := by
  induction pre with
  | nil =>
    intro s hmem
    rw [List.nil_append,
      load_checkpoints_from_dns_loop_step s record post pos k v hfind hext hhex,
      add_checkpoint_conflict s k _ v w hhex (map.find_of_mem s.ordered hmem) hne]
    simp
  | cons r pre ih =>
    intro s hmem
    rw [List.cons_append]
    cases hbad : dns_record_unparsable r with
    | true =>
      rw [load_checkpoints_from_dns_loop_skip s r _ hbad]
      exact ih s hmem
    | false =>
      unfold dns_record_unparsable at hbad
      cases hf : std.string_find ':' r.data with
      | none => rw [hf] at hbad; simp at hbad
      | some p2 =>
        rw [hf] at hbad
        simp only [Bool.or_eq_false_iff] at hbad
        obtain ⟨h1, h2⟩ := hbad
        cases he : std.stream_extract_uint64 (r.data.take p2) with
        | none => rw [he] at h1; simp at h1
        | some k2 =>
          cases hh : epee.parse_tpod_from_hex_string (String.mk (r.data.drop (p2 + 1))) with
          | none => rw [hh] at h2; simp at h2
          | some v2 =>
            rw [load_checkpoints_from_dns_loop_step s r _ p2 k2 v2 hf he hh]
            by_cases hok : (add_checkpoint s k2 (String.mk (r.data.drop (p2 + 1)))).1 = true
            · rw [if_pos hok]
              exact ih _ (add_checkpoint_keeps s k2 _ k w hmem)
            · rw [if_neg hok]

/-- C12. When the resolver succeeds and its response holds a record that parses
(a ':' is found, the height extracts, the hash decodes) whose height is in the
store with another hash, `load_checkpoints_from_dns` returns false: the
conflict is a failure of the call.  It is so whatever the records before it
are, also when one of them already fails. -/
theorem load_checkpoints_from_dns_conflict_fails (s : checkpoints) (nettype : network_type)
    (resolver : List String → Bool × List String)
    (pre : List String) (record : String) (post : List String)
    (pos k : Nat) (v w : crypto.hash)
    (hres : resolver (dns_urls_for nettype) = (true, pre ++ record :: post))
    (hfind : std.string_find ':' record.data = some pos)
    (hext : std.stream_extract_uint64 (record.data.take pos) = some k)
    (hhex : epee.parse_tpod_from_hex_string (String.mk (record.data.drop (pos + 1))) = some v)
    (hmem : (k, w) ∈ s.m_points) (hne : v ≠ w) :
    (load_checkpoints_from_dns s nettype resolver).1 = false := by
  rw [load_checkpoints_from_dns_eq, hres]
  simp only [not_true_eq_false, if_false]
  exact load_checkpoints_from_dns_loop_conflict pre record post pos k v w hfind hext hhex hne
    s hmem

/-- Witness of C12. -/
theorem load_checkpoints_from_dns_conflict_fails_witness :
    std.string_find ':' ("20:" ++ hex_bb).data = some 2 ∧
    std.stream_extract_uint64 (("20:" ++ hex_bb).data.take 2) = some 20 ∧
    epee.parse_tpod_from_hex_string (String.mk (("20:" ++ hex_bb).data.drop (2 + 1))) =
      some (sample_hash 0xbb) ∧
    (20, sample_hash 2) ∈ (store_10_20_30 (sample_hash 1) (sample_hash 2)
      (sample_hash 3)).m_points ∧
    sample_hash 0xbb ≠ sample_hash 2 ∧
    (load_checkpoints_from_dns (store_10_20_30 (sample_hash 1) (sample_hash 2) (sample_hash 3))
      network_type.MAINNET (fun _ => (true, ["40:" ++ hex_aa] ++ ("20:" ++ hex_bb) :: []))).1 =
      false :=
  ⟨by decide, by decide, by decide, by decide, by decide,
    load_checkpoints_from_dns_conflict_fails
      (store_10_20_30 (sample_hash 1) (sample_hash 2) (sample_hash 3)) network_type.MAINNET
      (fun _ => (true, ["40:" ++ hex_aa] ++ ("20:" ++ hex_bb) :: []))
      ["40:" ++ hex_aa] ("20:" ++ hex_bb) [] 2 20 (sample_hash 0xbb) (sample_hash 2)
      rfl (by decide) (by decide) (by decide) (by decide) (by decide)⟩

/-- C14. When the resolver reports failure, `load_checkpoints_from_dns` returns
true and the store is the one it was given, whatever records the resolver
wrote; for the test and stage networks the resolver is asked about the empty
domain list. -/
theorem load_checkpoints_from_dns_query_failure (s : checkpoints) (nettype : network_type)
    (resolver : List String → Bool × List String) :
    ((resolver (dns_urls_for nettype)).1 = false →
        load_checkpoints_from_dns s nettype resolver = (true, s)) ∧
    (nettype ≠ network_type.MAINNET → dns_urls_for nettype = []) ∧
    (nettype ≠ network_type.MAINNET → (resolver []).1 = false →
        load_checkpoints_from_dns s nettype resolver = (true, s)) := by
  have hfail : (resolver (dns_urls_for nettype)).1 = false →
      load_checkpoints_from_dns s nettype resolver = (true, s) := by
    intro h
    rw [load_checkpoints_from_dns_eq, h]
    simp
  have hurls : nettype ≠ network_type.MAINNET → dns_urls_for nettype = [] := by
    intro h
    cases nettype with
    | MAINNET => exact absurd rfl h
    | TESTNET => rfl
    | STAGENET => rfl
  refine ⟨hfail, hurls, ?_⟩
  intro hn h
  apply hfail
  rw [hurls hn]
  exact h

/-- Witness of C14: the resolver reports failure yet wrote a record. -/
theorem load_checkpoints_from_dns_query_failure_witness :
    ((fun _ => (false, ["40:" ++ hex_aa])) (dns_urls_for network_type.MAINNET) :
        Bool × List String).1 = false ∧
    load_checkpoints_from_dns (store_single 20 (sample_hash 2)) network_type.MAINNET
        (fun _ => (false, ["40:" ++ hex_aa])) = (true, store_single 20 (sample_hash 2)) :=
  ⟨rfl,
    (load_checkpoints_from_dns_query_failure (store_single 20 (sample_hash 2))
      network_type.MAINNET (fun _ => (false, ["40:" ++ hex_aa]))).1 rfl⟩

end cryptonote

/-! ## The hash decoder -/

namespace epee

theorem parse_hexstr_to_binbuff_some (n : Nat) :
    ∀ (cs : List Char) (buf : List (Fin 256)), cs.length ≤ n →
      parse_hexstr_to_binbuff cs = some buf →
      cs.length = 2 * buf.length ∧ ∀ c ∈ cs, (hex_value c).isSome = true := by
  induction n with
  | zero =>
    intro cs buf hlen h
    have hnil : cs = [] := List.length_eq_zero.1 (Nat.le_zero.1 hlen)
    subst hnil
    simp only [parse_hexstr_to_binbuff, Option.some.injEq] at h
    subst h
    simp
  | succ n ih =>
    intro cs buf hlen h
    match cs, h, hlen with
    | [], h, _ =>
      simp only [parse_hexstr_to_binbuff, Option.some.injEq] at h
      subst h
      simp
    | [_], h, _ => simp [parse_hexstr_to_binbuff] at h
    | hi :: lo :: rest, h, hlen =>
      rw [parse_hexstr_to_binbuff] at h
      cases ha : hex_value hi with
      | none => simp [ha] at h
      | some a =>
        cases hb : hex_value lo with
        | none => simp [ha, hb] at h
        | some b =>
          cases ht : parse_hexstr_to_binbuff rest with
          | none => simp [ha, hb, ht] at h
          | some tl =>
            simp only [ha, hb, ht, Option.some.injEq] at h
            have hrest : rest.length ≤ n := by
              simp only [List.length_cons] at hlen
              omega
            obtain ⟨hl, hall⟩ := ih rest tl hrest ht
            subst h
            refine ⟨?_, ?_⟩
            · simp only [List.length_cons]
              omega
            · intro c hc
              rcases List.mem_cons.1 hc with rfl | hc
              · rw [ha]; rfl
              · rcases List.mem_cons.1 hc with rfl | hc
                · rw [hb]; rfl
                · exact hall c hc

theorem parse_hexstr_to_binbuff_of_hex (n : Nat) :
    ∀ cs : List Char, cs.length = 2 * n → (∀ c ∈ cs, (hex_value c).isSome = true) →
      ∃ buf, parse_hexstr_to_binbuff cs = some buf ∧ buf.length = n := by
  induction n with
  | zero =>
    intro cs hlen _
    have hnil : cs = [] := List.length_eq_zero.1 (by omega)
    subst hnil
    exact ⟨[], rfl, rfl⟩
  | succ n ih =>
    intro cs hlen hall
    match cs, hlen, hall with
    | [], hlen, _ => simp at hlen
    | [_], hlen, _ => simp only [List.length_cons, List.length_nil] at hlen; omega
    | hi :: lo :: rest, hlen, hall =>
      obtain ⟨a, ha⟩ := Option.isSome_iff_exists.1 (hall hi (List.mem_cons_self _ _))
      obtain ⟨b, hb⟩ := Option.isSome_iff_exists.1
        (hall lo (List.mem_cons_of_mem _ (List.mem_cons_self _ _)))
      have hrest : rest.length = 2 * n := by
        simp only [List.length_cons] at hlen
        omega
      obtain ⟨tl, ht, htl⟩ := ih rest hrest
        (fun c hc => hall c (List.mem_cons_of_mem _ (List.mem_cons_of_mem _ hc)))
      refine ⟨Fin.ofNat (16 * a + b) :: tl, ?_, ?_⟩
      · rw [parse_hexstr_to_binbuff]
        simp only [ha, hb, ht]
      · simp [htl]

/-- The decoder accepts exactly the strings of 64 hexadecimal characters. -/
theorem parse_tpod_from_hex_string_isSome_iff (str_hash : String) :
    (parse_tpod_from_hex_string str_hash).isSome = true ↔
      str_hash.data.length = 64 ∧ ∀ c ∈ str_hash.data, (hex_value c).isSome = true := by
  unfold parse_tpod_from_hex_string
  constructor
  · intro h
    cases hp : parse_hexstr_to_binbuff str_hash.data with
    | none => rw [hp] at h; simp at h
    | some buf =>
      rw [hp] at h
      simp only [] at h
      by_cases hl : buf.length = 32
      · obtain ⟨h1, h2⟩ := parse_hexstr_to_binbuff_some _ _ buf (Nat.le_refl _) hp
        exact ⟨by omega, h2⟩
      · rw [dif_neg hl] at h; simp at h
  · rintro ⟨hlen, hall⟩
    obtain ⟨buf, hp, hl⟩ := parse_hexstr_to_binbuff_of_hex 32 str_hash.data (by omega) hall
    rw [hp]
    simp only []
    rw [dif_pos hl]
    rfl

end epee

namespace cryptonote

/-- C15. For a hash string that does not decode, that is, one that is not 64
hexadecimal characters, `add_checkpoint` returns false and the store is the one
it was given, at every height, present or not. -/
theorem add_checkpoint_undecodable (s : checkpoints) (height : Nat) (hash_str : String) :
    (epee.parse_tpod_from_hex_string hash_str = none →
        add_checkpoint s height hash_str = (false, s)) ∧
    (¬ (hash_str.data.length = 64 ∧ ∀ c ∈ hash_str.data, (epee.hex_value c).isSome = true) →
        add_checkpoint s height hash_str = (false, s)) ∧
    (epee.parse_tpod_from_hex_string hash_str = none ↔
      ¬ (hash_str.data.length = 64 ∧
        ∀ c ∈ hash_str.data, (epee.hex_value c).isSome = true)) := by
  have hiff : epee.parse_tpod_from_hex_string hash_str = none ↔
      ¬ (hash_str.data.length = 64 ∧
        ∀ c ∈ hash_str.data, (epee.hex_value c).isSome = true) := by
    rw [← epee.parse_tpod_from_hex_string_isSome_iff]
    cases epee.parse_tpod_from_hex_string hash_str with
    | none => simp
    | some v => simp
  exact ⟨add_checkpoint_malformed s height hash_str,
    fun h => add_checkpoint_malformed s height hash_str (hiff.2 h), hiff⟩

/-- Witness of C15: a string of 8 characters at a height that is present and
at one that is not. -/
theorem add_checkpoint_undecodable_witness :
    epee.parse_tpod_from_hex_string "deadbeef" = none ∧
    add_checkpoint (store_single 20 (sample_hash 2)) 20 "deadbeef" =
      (false, store_single 20 (sample_hash 2)) ∧
    add_checkpoint (store_single 20 (sample_hash 2)) 21 "deadbeef" =
      (false, store_single 20 (sample_hash 2)) :=
  ⟨by decide,
    (add_checkpoint_undecodable (store_single 20 (sample_hash 2)) 20 "deadbeef").1 (by decide),
    (add_checkpoint_undecodable (store_single 20 (sample_hash 2)) 21 "deadbeef").1 (by decide)⟩

end cryptonote

/-! ## Seeding and combined loading -/

namespace cryptonote

/-- C16. On the empty store `init_default_checkpoints` for the main network
returns true and leaves the 24 compiled-in checkpoints: the heights 1, 10000
and the multiples of 25000 from 25000 to 550000, each with the hash its table
row decodes to, the greatest height being 550000.  For the test and stage
networks it returns true and leaves the store empty. -/
theorem init_default_checkpoints_on_empty :
    (init_default_checkpoints checkpoints.new network_type.MAINNET).1 = true ∧
    (init_default_checkpoints checkpoints.new network_type.MAINNET).2.m_points.map Prod.fst =
      1 :: 10000 :: (List.range 22).map (fun i => 25000 * (i + 1)) ∧
    (init_default_checkpoints checkpoints.new network_type.MAINNET).2.m_points.length = 24 ∧
    (init_default_checkpoints checkpoints.new network_type.MAINNET).2.m_points.map some =
      mainnet_checkpoints.map
        (fun row => (epee.parse_tpod_from_hex_string row.2).map (fun v => (row.1, v))) ∧
    get_max_height (init_default_checkpoints checkpoints.new network_type.MAINNET).2 =
      some 550000 ∧
    init_default_checkpoints checkpoints.new network_type.TESTNET = (true, checkpoints.new) ∧
    init_default_checkpoints checkpoints.new network_type.STAGENET = (true, checkpoints.new) := by
  refine ⟨by decide, by decide, by decide, by decide, by decide, rfl, rfl⟩

/-- C13, counterexample.  The file does not exist, so the file load returns
true; the resolver answers one record that conflicts with the checkpoint at
height 20, so the combined call with `dns` set returns false. -/
theorem load_new_checkpoints_dns_conflict :
    (load_checkpoints_from_json (store_single 20 (sample_hash 2)) hashfile.not_found).map
        Prod.fst = some true ∧
    (load_new_checkpoints (store_single 20 (sample_hash 2)) hashfile.not_found
        network_type.MAINNET true (fun _ => (true, ["20:" ++ hex_bb]))).map Prod.fst =
      some false := by
  decide

/-- C13, as amended.  With `dns` set, `load_new_checkpoints` returns the
conjunction of the result of the file load and of the result of
`load_checkpoints_from_dns` on the store the file load left (and is undefined
where the file load is).  Hence it has the result of the file load whenever
the DNS load returns true, and it is the file load itself whenever the resolver
reports failure. -/
theorem load_new_checkpoints_result (s : checkpoints) (file : hashfile)
    (nettype : network_type) (resolver : List String → Bool × List String) :
    (load_checkpoints_from_json s file = none →
        load_new_checkpoints s file nettype true resolver = none) ∧
    (∀ r s1, load_checkpoints_from_json s file = some (r, s1) →
        load_new_checkpoints s file nettype true resolver =
          some (r && (load_checkpoints_from_dns s1 nettype resolver).1,
            (load_checkpoints_from_dns s1 nettype resolver).2)) ∧
    (∀ r s1, load_checkpoints_from_json s file = some (r, s1) →
        (load_checkpoints_from_dns s1 nettype resolver).1 = true →
        (load_new_checkpoints s file nettype true resolver).map Prod.fst = some r) ∧
    ((resolver (dns_urls_for nettype)).1 = false →
        load_new_checkpoints s file nettype true resolver =
          load_checkpoints_from_json s file) := by
  have hsome : ∀ r s1, load_checkpoints_from_json s file = some (r, s1) →
      load_new_checkpoints s file nettype true resolver =
        some (r && (load_checkpoints_from_dns s1 nettype resolver).1,
          (load_checkpoints_from_dns s1 nettype resolver).2) := by
    intro r s1 h
    unfold load_new_checkpoints
    rw [h]
    simp
  have hnone : load_checkpoints_from_json s file = none →
      load_new_checkpoints s file nettype true resolver = none := by
    intro h
    unfold load_new_checkpoints
    rw [h]
  refine ⟨hnone, hsome, ?_, ?_⟩
  · intro r s1 h hdns
    rw [hsome r s1 h, hdns]
    simp
  · intro hfail
    cases h : load_checkpoints_from_json s file with
    | none => exact hnone h
    | some res =>
      obtain ⟨r, s1⟩ := res
      rw [hsome r s1 h, load_checkpoints_from_dns_eq, hfail]
      simp

/-- Witness of C13 as amended: the resolver reports failure. -/
theorem load_new_checkpoints_result_witness :
    ((fun _ => (false, ["20:" ++ hex_bb])) (dns_urls_for network_type.MAINNET) :
        Bool × List String).1 = false ∧
    load_new_checkpoints (store_single 20 (sample_hash 2)) hashfile.malformed
        network_type.MAINNET true (fun _ => (false, ["20:" ++ hex_bb])) =
      load_checkpoints_from_json (store_single 20 (sample_hash 2)) hashfile.malformed :=
  ⟨rfl,
    (load_new_checkpoints_result (store_single 20 (sample_hash 2)) hashfile.malformed
      network_type.MAINNET (fun _ => (false, ["20:" ++ hex_bb]))).2.2.2 rfl⟩

end cryptonote

/-! ## The file loader and the prior maximum -/

namespace cryptonote

theorem add_checkpoint_mem_cases (s : checkpoints) (height : Nat) (hash_str : String)
    (k : Nat) (v : crypto.hash)
    (hmem : (k, v) ∈ (add_checkpoint s height hash_str).2.m_points) :
    (k, v) ∈ s.m_points ∨ k = height := by
  unfold add_checkpoint at hmem
  cases hparse : epee.parse_tpod_from_hex_string hash_str with
  | none => rw [hparse] at hmem; exact Or.inl hmem
  | some h =>
    rw [hparse] at hmem
    simp only [] at hmem
    split_ifs at hmem with hc
    · exact Or.inl hmem
    · have hm2 : (k, v) ∈ map.assign s.m_points height h := hmem
      rw [map.mem_assign s.ordered] at hm2
      rcases hm2 with ⟨hk, _⟩ | ⟨_, hin⟩
      · exact Or.inr hk
      · exact Or.inl hin

theorem load_checkpoints_from_json_loop_new_above (prev : Nat) (lines : List t_hashline) :
    ∀ (s : checkpoints) (k : Nat) (v : crypto.hash),
      (k, v) ∈ (load_checkpoints_from_json_loop prev s lines).2.m_points →
      (k, v) ∈ s.m_points ∨ prev < k := by
  induction lines with
  | nil => intro s k v h; exact Or.inl h
  | cons line rest ih =>
    intro s k v h
    unfold load_checkpoints_from_json_loop at h
    by_cases hle : line.height ≤ prev
    · rw [if_pos hle] at h
      exact ih s k v h
    · rw [if_neg hle] at h
      have hcases := add_checkpoint_mem_cases s line.height line.hash k v
      cases hadd : add_checkpoint s line.height line.hash with
      | mk r s1 =>
        rw [hadd] at h hcases
        have hin : (k, v) ∈ s1.m_points → (k, v) ∈ s.m_points ∨ prev < k := by
          intro hk
          rcases hcases hk with hs | he
          · exact Or.inl hs
          · right; rw [he]; exact Nat.lt_of_not_le hle
        cases r with
        | true =>
          rcases ih s1 k v h with h1 | h2
          · exact hin h1
          · exact Or.inr h2
        | false => exact hin h

/-- C17, counterexample.  The store holds 10, 20 and 30 and the file lists
height 230 and then height 130.  After the first record the greatest height in
the store is 230, yet the second record, at 130, is inserted. -/
theorem load_checkpoints_from_json_later_lower_record :
    (load_checkpoints_from_json (store_10_20_30 (sample_hash 1) (sample_hash 2) (sample_hash 3))
        (hashfile.loaded ⟨[⟨230, hex_aa⟩]⟩)).bind (fun res => get_max_height res.2) =
      some 230 ∧
    (load_checkpoints_from_json (store_10_20_30 (sample_hash 1) (sample_hash 2) (sample_hash 3))
        (hashfile.loaded ⟨[⟨230, hex_aa⟩, ⟨130, hex_bb⟩]⟩)).map (fun res => res.2.m_points) =
      some [(10, sample_hash 1), (20, sample_hash 2), (30, sample_hash 3),
        (130, sample_hash 0xbb), (230, sample_hash 0xaa)] := by
  decide

/-- C17, as amended.  `load_checkpoints_from_json` only extends the store past
the maximum `M` it had when the call began: on a store whose greatest height
is `M` the load of a parsed file is defined and every entry of the store it
leaves is an entry of the initial store or has a height above `M`.  The
maximum is read once, before the loop, and records are not compared with what
earlier records of the file added: a file listing `M + 200` and then `M + 100`
adds both. -/
theorem load_checkpoints_from_json_above_prior_max (s : checkpoints) (M : Nat)
    (hashes : t_hash_json)
    (hM : M ∈ s.m_points.map Prod.fst) (hmax : ∀ p ∈ s.m_points, p.1 ≤ M) :
    (∃ r s1, load_checkpoints_from_json s (hashfile.loaded hashes) = some (r, s1) ∧
      ∀ k v, (k, v) ∈ s1.m_points → (k, v) ∈ s.m_points ∨ M < k) ∧
    (∀ strA strB a b, epee.parse_tpod_from_hex_string strA = some a →
      epee.parse_tpod_from_hex_string strB = some b →
      ∃ s2, load_checkpoints_from_json s
          (hashfile.loaded ⟨[⟨M + 200, strA⟩, ⟨M + 100, strB⟩]⟩) = some (true, s2) ∧
        (M + 200, a) ∈ s2.m_points ∧ (M + 100, b) ∈ s2.m_points) := by
  have hget := get_max_height_eq s M hM hmax
  refine ⟨?_, ?_⟩
  · refine ⟨(load_checkpoints_from_json_loop M s hashes.hashlines).1,
      (load_checkpoints_from_json_loop M s hashes.hashlines).2, ?_,
      load_checkpoints_from_json_loop_new_above M hashes.hashlines s⟩
    unfold load_checkpoints_from_json
    simp only [hget]
  · intro strA strB a b hA hB
    have habsent : ∀ k w, M < k → (k, w) ∈ s.m_points → False :=
      fun k w hk hw => Nat.not_le_of_lt hk (hmax _ hw)
    have hcompat : ∀ line ∈ [(⟨M + 200, strA⟩ : t_hashline), ⟨M + 100, strB⟩],
        M < line.height →
        ∃ v, epee.parse_tpod_from_hex_string line.hash = some v ∧
          (∀ w, (line.height, w) ∈ s.m_points → w = v) ∧
          ∀ line2 ∈ [(⟨M + 200, strA⟩ : t_hashline), ⟨M + 100, strB⟩],
            line2.height = line.height →
            epee.parse_tpod_from_hex_string line2.hash = some v := by
      intro line hl hlt
      simp only [List.mem_cons, List.mem_singleton, List.not_mem_nil, or_false] at hl
      rcases hl with rfl | rfl
      · refine ⟨a, hA, fun w hw => (habsent _ w hlt hw).elim, ?_⟩
        intro l2 hl2 hk
        simp only [List.mem_cons, List.mem_singleton, List.not_mem_nil, or_false] at hl2
        rcases hl2 with rfl | rfl
        · exact hA
        · simp only at hk; omega
      · refine ⟨b, hB, fun w hw => (habsent _ w hlt hw).elim, ?_⟩
        intro l2 hl2 hk
        simp only [List.mem_cons, List.mem_singleton, List.not_mem_nil, or_false] at hl2
        rcases hl2 with rfl | rfl
        · simp only at hk; omega
        · exact hB
    obtain ⟨hok, hiff⟩ := load_checkpoints_from_json_loop_extends M _ s hcompat
    refine ⟨(load_checkpoints_from_json_loop M s
      [(⟨M + 200, strA⟩ : t_hashline), ⟨M + 100, strB⟩]).2, ?_, ?_, ?_⟩
    · unfold load_checkpoints_from_json
      simp only [hget]
      rw [← hok]
    · exact (hiff _ _).2 (Or.inr ⟨⟨M + 200, strA⟩, by simp, by simp, rfl, hA⟩)
    · exact (hiff _ _).2 (Or.inr ⟨⟨M + 100, strB⟩, by simp, by simp, rfl, hB⟩)

/-- Witness of C17 as amended. -/
theorem load_checkpoints_from_json_above_prior_max_witness :
    30 ∈ (store_10_20_30 (sample_hash 1) (sample_hash 2) (sample_hash 3)).m_points.map Prod.fst ∧
    (∀ p ∈ (store_10_20_30 (sample_hash 1) (sample_hash 2) (sample_hash 3)).m_points,
        p.1 ≤ 30) ∧
    epee.parse_tpod_from_hex_string hex_aa = some (sample_hash 0xaa) ∧
    epee.parse_tpod_from_hex_string hex_bb = some (sample_hash 0xbb) ∧
    ∃ s2, load_checkpoints_from_json
        (store_10_20_30 (sample_hash 1) (sample_hash 2) (sample_hash 3))
        (hashfile.loaded ⟨[⟨30 + 200, hex_aa⟩, ⟨30 + 100, hex_bb⟩]⟩) = some (true, s2) ∧
      (30 + 200, sample_hash 0xaa) ∈ s2.m_points ∧ (30 + 100, sample_hash 0xbb) ∈ s2.m_points :=
  ⟨by decide, by decide, by decide, by decide,
    (load_checkpoints_from_json_above_prior_max
      (store_10_20_30 (sample_hash 1) (sample_hash 2) (sample_hash 3)) 30 ⟨[]⟩
      (by decide) (by decide)).2 hex_aa hex_bb (sample_hash 0xaa) (sample_hash 0xbb)
      (by decide) (by decide)⟩

end cryptonote

/-! ## Failure in the middle of a file -/

namespace cryptonote

theorem load_checkpoints_from_json_loop_append (prev : Nat) (pre rest : List t_hashline) :
    ∀ s : checkpoints, load_checkpoints_from_json_loop prev s (pre ++ rest) =
      if (load_checkpoints_from_json_loop prev s pre).1 = true then
        load_checkpoints_from_json_loop prev (load_checkpoints_from_json_loop prev s pre).2 rest
      else (false, (load_checkpoints_from_json_loop prev s pre).2) := by
  induction pre with
  | nil =>
    intro s
    simp [load_checkpoints_from_json_loop]
  | cons line pre ih =>
    intro s
    rw [List.cons_append, load_checkpoints_from_json_loop]
    conv_rhs => rw [load_checkpoints_from_json_loop]
    by_cases hle : line.height ≤ prev
    · rw [if_pos hle, if_pos hle]
      exact ih s
    · rw [if_neg hle, if_neg hle]
      cases add_checkpoint s line.height line.hash with
      | mk r s1 =>
        cases r with
        | true => exact ih s1
        | false => simp

/-- C20. On a store whose greatest height is `M`, let the parsed file be
`pre`, then the record `bad`, then `post`, where the records of `pre` above `M`
decode and agree on repeated heights, and `bad` is above `M` and either does
not decode or repeats the height of a record of `pre` with another hash.  Then
`load_checkpoints_from_json` returns false and leaves the store that the load
of `pre` alone leaves: the initial entries and the records of `pre` above `M`.
Nothing of `post` is applied and nothing of `pre` is undone. -/
theorem load_checkpoints_from_json_stops_at_failure (s : checkpoints) (M : Nat)
    (pre : List t_hashline) (bad : t_hashline) (post : List t_hashline)
    (hM : M ∈ s.m_points.map Prod.fst) (hmax : ∀ p ∈ s.m_points, p.1 ≤ M)
    (hdecodes : ∀ line ∈ pre, M < line.height →
        (epee.parse_tpod_from_hex_string line.hash).isSome = true)
    (hagree : ∀ line ∈ pre, ∀ line2 ∈ pre, M < line.height → line2.height = line.height →
        epee.parse_tpod_from_hex_string line2.hash = epee.parse_tpod_from_hex_string line.hash)
    (hbad_above : M < bad.height)
    (hbad : epee.parse_tpod_from_hex_string bad.hash = none ∨
        ∃ line ∈ pre, line.height = bad.height ∧
          epee.parse_tpod_from_hex_string line.hash ≠
            epee.parse_tpod_from_hex_string bad.hash) :
    ∃ s1, load_checkpoints_from_json s (hashfile.loaded ⟨pre⟩) = some (true, s1) ∧
      load_checkpoints_from_json s (hashfile.loaded ⟨pre ++ bad :: post⟩) = some (false, s1) ∧
      ∀ k v, (k, v) ∈ s1.m_points ↔
        (k, v) ∈ s.m_points ∨
        ∃ line ∈ pre, M < line.height ∧ line.height = k ∧
          epee.parse_tpod_from_hex_string line.hash = some v := by
  have hget := get_max_height_eq s M hM hmax
  have hcompat : ∀ line ∈ pre, M < line.height →
      ∃ v, epee.parse_tpod_from_hex_string line.hash = some v ∧
        (∀ w, (line.height, w) ∈ s.m_points → w = v) ∧
        ∀ line2 ∈ pre, line2.height = line.height →
          epee.parse_tpod_from_hex_string line2.hash = some v := by
    intro line hl hlt
    obtain ⟨v, hv⟩ := Option.isSome_iff_exists.1 (hdecodes line hl hlt)
    refine ⟨v, hv, ?_, ?_⟩
    · intro w hw
      exact absurd (hmax _ hw) (Nat.not_le_of_lt hlt)
    · intro l2 hl2 hk
      rw [hagree line hl l2 hl2 hlt hk, hv]
  obtain ⟨hok, hiff⟩ := load_checkpoints_from_json_loop_extends M pre s hcompat
  have hfail : add_checkpoint (load_checkpoints_from_json_loop M s pre).2 bad.height bad.hash =
      (false, (load_checkpoints_from_json_loop M s pre).2) := by
    cases hp : epee.parse_tpod_from_hex_string bad.hash with
    | none => exact add_checkpoint_malformed _ _ _ hp
    | some v =>
      rcases hbad with hnone | ⟨line, hl, hk, hne⟩
      · rw [hp] at hnone; simp at hnone
      · have hlt : M < line.height := by rw [hk]; exact hbad_above
        obtain ⟨w, hw⟩ := Option.isSome_iff_exists.1 (hdecodes line hl hlt)
        have hin : (bad.height, w) ∈ (load_checkpoints_from_json_loop M s pre).2.m_points :=
          (hiff bad.height w).2 (Or.inr ⟨line, hl, hlt, hk, hw⟩)
        refine add_checkpoint_conflict _ bad.height bad.hash v w hp
          (map.find_of_mem (load_checkpoints_from_json_loop M s pre).2.ordered hin) ?_
        intro e
        apply hne
        rw [hw, hp, e]
  refine ⟨(load_checkpoints_from_json_loop M s pre).2, ?_, ?_, hiff⟩
  · unfold load_checkpoints_from_json
    simp only [hget]
    rw [← hok]
  · unfold load_checkpoints_from_json
    simp only [hget]
    rw [load_checkpoints_from_json_loop_append, if_pos hok, load_checkpoints_from_json_loop,
      if_neg (Nat.not_le_of_lt hbad_above), hfail]

/-- Witness of C20: the third record repeats height 40 with another hash. -/
theorem load_checkpoints_from_json_stops_at_failure_witness :
    30 ∈ (store_10_20_30 (sample_hash 1) (sample_hash 2) (sample_hash 3)).m_points.map Prod.fst ∧
    (∀ p ∈ (store_10_20_30 (sample_hash 1) (sample_hash 2) (sample_hash 3)).m_points,
        p.1 ≤ 30) ∧
    ∃ s1, load_checkpoints_from_json
        (store_10_20_30 (sample_hash 1) (sample_hash 2) (sample_hash 3))
        (hashfile.loaded ⟨[⟨40, hex_aa⟩, ⟨15, "x"⟩]⟩) = some (true, s1) ∧
      load_checkpoints_from_json
        (store_10_20_30 (sample_hash 1) (sample_hash 2) (sample_hash 3))
        (hashfile.loaded ⟨[⟨40, hex_aa⟩, ⟨15, "x"⟩] ++ ⟨40, hex_bb⟩ :: [⟨50, hex_cc⟩]⟩) =
          some (false, s1) ∧
      ∀ k v, (k, v) ∈ s1.m_points ↔
        (k, v) ∈ (store_10_20_30 (sample_hash 1) (sample_hash 2) (sample_hash 3)).m_points ∨
        ∃ line ∈ [(⟨40, hex_aa⟩ : t_hashline), ⟨15, "x"⟩], 30 < line.height ∧ line.height = k ∧
          epee.parse_tpod_from_hex_string line.hash = some v :=
  ⟨by decide, by decide,
    load_checkpoints_from_json_stops_at_failure
      (store_10_20_30 (sample_hash 1) (sample_hash 2) (sample_hash 3)) 30
      [⟨40, hex_aa⟩, ⟨15, "x"⟩] ⟨40, hex_bb⟩ [⟨50, hex_cc⟩]
      (by decide) (by decide) (by decide) (by decide) (by decide)
      (Or.inr ⟨⟨40, hex_aa⟩, by simp, rfl, by decide⟩)⟩

end cryptonote

/-! ## `check_for_conflicts` as a test before merging -/

namespace cryptonote

theorem hex_value_hex_digit (n : Fin 16) : epee.hex_value (hex_digit n.val) = some n.val := by
  revert n
  decide

theorem parse_hex_of_bytes (bytes : List (Fin 256)) :
    epee.parse_hexstr_to_binbuff (hex_of_bytes bytes) = some bytes := by
  induction bytes with
  | nil => rfl
  | cons b rest ih =>
    have hhi := hex_value_hex_digit ⟨b.val / 16, by omega⟩
    have hlo := hex_value_hex_digit ⟨b.val % 16, by omega⟩
    simp only [] at hhi hlo
    rw [hex_of_bytes, epee.parse_hexstr_to_binbuff]
    simp only [hhi, hlo, ih]
    have hb : (Fin.ofNat (16 * (b.val / 16) + b.val % 16) : Fin 256) = b := by
      apply Fin.ext
      show (16 * (b.val / 16) + b.val % 16) % 256 = b.val
      rw [Nat.div_add_mod]
      exact Nat.mod_eq_of_lt b.isLt
    rw [hb]

theorem parse_hex_of_hash (h : crypto.hash) :
    epee.parse_tpod_from_hex_string (hex_of_hash h) = some h := by
  unfold epee.parse_tpod_from_hex_string hex_of_hash
  simp only [parse_hex_of_bytes]
  rw [dif_pos h.size_eq]

theorem ADD_CHECKPOINTS_merge (table : List (Nat × String)) :
    ∀ (pts : List (Nat × crypto.hash)) (s : checkpoints),
      table.map (fun row => (epee.parse_tpod_from_hex_string row.2).map (fun v => (row.1, v))) =
        pts.map some →
      pts.Pairwise (fun a b => a.1 < b.1) →
      ((ADD_CHECKPOINTS s table).1 = true ↔
        ∀ pt ∈ pts, ∀ a, (pt.1, a) ∈ s.m_points → a = pt.2) ∧
      ((ADD_CHECKPOINTS s table).1 = true →
        ∀ k v, (k, v) ∈ (ADD_CHECKPOINTS s table).2.m_points ↔
          (k, v) ∈ s.m_points ∨ (k, v) ∈ pts) := by
  induction table with
  | nil =>
    intro pts s hmap _
    have hnil : pts = [] := by
      cases pts with
      | nil => rfl
      | cons _ _ => simp at hmap
    subst hnil
    simp [ADD_CHECKPOINTS]
  | cons row rest ih =>
    intro pts s hmap hord
    obtain ⟨h, str⟩ := row
    cases pts with
    | nil => simp at hmap
    | cons pt pts =>
      simp only [List.map_cons, List.cons.injEq] at hmap
      obtain ⟨hhead, htail⟩ := hmap
      have hord2 := List.pairwise_cons.1 hord
      cases hp : epee.parse_tpod_from_hex_string str with
      | none => rw [hp] at hhead; simp at hhead
      | some v =>
        rw [hp] at hhead
        simp only [Option.map_some', Option.some.injEq] at hhead
        subst hhead
        rw [ADD_CHECKPOINTS]
        by_cases hc : ∀ a, (h, a) ∈ s.m_points → a = v
        · rw [add_checkpoint_compatible s h str v hp hc]
          simp only []
          obtain ⟨ih1, ih2⟩ := ih pts (s.assign h v) htail hord2.2
          have hsame : ∀ pt ∈ pts, ∀ a,
              (pt.1, a) ∈ (s.assign h v).m_points ↔ (pt.1, a) ∈ s.m_points := by
            intro pt hpt a
            have hne : pt.1 ≠ h := Nat.ne_of_gt (hord2.1 pt hpt)
            have := map.mem_assign s.ordered h v pt.1 a
            constructor
            · intro hin
              rcases this.1 hin with ⟨hk, _⟩ | ⟨_, hh⟩
              · exact absurd hk hne
              · exact hh
            · intro hin
              exact this.2 (Or.inr ⟨hne, hin⟩)
          refine ⟨?_, ?_⟩
          · rw [ih1]
            constructor
            · intro hall pt hpt a ha
              rcases List.mem_cons.1 hpt with rfl | hpt
              · exact hc a ha
              · exact hall pt hpt a ((hsame pt hpt a).2 ha)
            · intro hall pt hpt a ha
              exact hall pt (List.mem_cons_of_mem _ hpt) a ((hsame pt hpt a).1 ha)
          · intro hok k w
            rw [ih2 hok k w]
            have hassign : (k, w) ∈ (s.assign h v).m_points ↔
                (k = h ∧ w = v) ∨ (k ≠ h ∧ (k, w) ∈ s.m_points) :=
              map.mem_assign s.ordered h v k w
            rw [hassign]
            constructor
            · rintro ((⟨hk, hw⟩ | ⟨_, hin⟩) | hin)
              · right; rw [hk, hw]; exact List.mem_cons_self _ _
              · exact Or.inl hin
              · exact Or.inr (List.mem_cons_of_mem _ hin)
            · rintro (hin | hin)
              · by_cases hk : k = h
                · left; left
                  refine ⟨hk, hc w ?_⟩
                  rw [← hk]; exact hin
                · left; right; exact ⟨hk, hin⟩
              · rcases List.mem_cons.1 hin with he | hin
                · left; left
                  exact ⟨(Prod.mk.inj he).1, (Prod.mk.inj he).2⟩
                · exact Or.inr hin
        · have hex : ∃ a, (h, a) ∈ s.m_points ∧ a ≠ v := by
            by_contra hno
            apply hc
            intro a ha
            by_contra hne
            exact hno ⟨a, ha, hne⟩
          obtain ⟨a, ha, hne⟩ := hex
          rw [add_checkpoint_conflict s h str v a hp (map.find_of_mem s.ordered ha)
            (fun e => hne e.symm)]
          simp only []
          refine ⟨?_, fun hf => by simp at hf⟩
          constructor
          · intro hf; simp at hf
          · intro hall
            exact absurd (hall (h, v) (List.mem_cons_self _ _) a ha) hne

/-- C19. Let `table` list the entries of `other` in order, each hash as a hex
string that decodes to it; there is such a table for every store.  Then
`check_for_conflicts s other` is true exactly when adding the rows of `table`
to `s` with `add_checkpoint`, one after another, succeeds for every row; and
when it is true the store so obtained holds exactly the entries of `s` and the
entries of `other`. -/
theorem check_for_conflicts_sound_complete (s other : checkpoints) :
    (∃ table : List (Nat × String), table.map
        (fun row => (epee.parse_tpod_from_hex_string row.2).map (fun v => (row.1, v))) =
      other.m_points.map some) ∧
    ∀ table : List (Nat × String),
      table.map
          (fun row => (epee.parse_tpod_from_hex_string row.2).map (fun v => (row.1, v))) =
        other.m_points.map some →
      (check_for_conflicts s other = true ↔ (ADD_CHECKPOINTS s table).1 = true) ∧
      (check_for_conflicts s other = true →
        ∀ k v, (k, v) ∈ (ADD_CHECKPOINTS s table).2.m_points ↔
          (k, v) ∈ s.m_points ∨ (k, v) ∈ other.m_points) := by
  refine ⟨⟨other.m_points.map (fun pt => (pt.1, hex_of_hash pt.2)), ?_⟩, ?_⟩
  · rw [List.map_map]
    apply List.map_congr_left
    intro pt _
    simp only [Function.comp_apply, parse_hex_of_hash, Option.map_some']
  · intro table htable
    obtain ⟨h1, h2⟩ := ADD_CHECKPOINTS_merge table other.m_points s htable other.ordered
    have hcheck : check_for_conflicts s other = true ↔
        ∀ pt ∈ other.m_points, ∀ a, (pt.1, a) ∈ s.m_points → a = pt.2 := by
      unfold check_for_conflicts get_points
      exact check_for_conflicts_loop_iff s other.m_points
    refine ⟨?_, ?_⟩
    · rw [hcheck, h1]
    · intro hc
      exact h2 (h1.2 (hcheck.1 hc))

/-- Witness of C19: the store with 10, 20 and 30 against a store with 20 (the
same hash) and 40. -/
theorem check_for_conflicts_sound_complete_witness :
    [(20, hex_bb), (40, hex_cc)].map
        (fun row => (epee.parse_tpod_from_hex_string row.2).map (fun v => (row.1, v))) =
      (add_checkpoint (store_single 20 (sample_hash 0xbb)) 40 hex_cc).2.m_points.map some ∧
    (check_for_conflicts (store_10_20_30 (sample_hash 1) (sample_hash 0xbb) (sample_hash 3))
        (add_checkpoint (store_single 20 (sample_hash 0xbb)) 40 hex_cc).2 = true ↔
      (ADD_CHECKPOINTS (store_10_20_30 (sample_hash 1) (sample_hash 0xbb) (sample_hash 3))
        [(20, hex_bb), (40, hex_cc)]).1 = true) :=
  ⟨by decide,
    ((check_for_conflicts_sound_complete
      (store_10_20_30 (sample_hash 1) (sample_hash 0xbb) (sample_hash 3))
      (add_checkpoint (store_single 20 (sample_hash 0xbb)) 40 hex_cc).2).2
      [(20, hex_bb), (40, hex_cc)] (by decide)).1⟩

end cryptonote

/-! ## The form of a DNS record -/

namespace std

theorem takeWhile_all (p : Char → Bool) (l : List Char) :
    ∀ c ∈ l.takeWhile p, p c = true := by
  induction l with
  | nil => intro c hc; simp at hc
  | cons a l ih =>
    intro c hc
    by_cases ha : p a = true
    · rw [List.takeWhile_cons_of_pos ha] at hc
      rcases List.mem_cons.1 hc with rfl | hc
      · exact ha
      · exact ih c hc
    · rw [List.takeWhile_cons_of_neg ha] at hc
      simp at hc

theorem dropWhile_head (p : Char → Bool) (l : List Char) :
    ∀ c, (l.dropWhile p).head? = some c → p c = false := by
  induction l with
  | nil => intro c hc; simp at hc
  | cons a l ih =>
    intro c hc
    by_cases ha : p a = true
    · rw [List.dropWhile_cons_of_pos ha] at hc
      exact ih c hc
    · rw [List.dropWhile_cons_of_neg ha] at hc
      simp only [List.head?_cons, Option.some.injEq] at hc
      rw [← hc]
      simpa using ha

theorem takeWhile_append_stop (p : Char → Bool) (ds tail : List Char)
    (hds : ∀ c ∈ ds, p c = true) (htail : ∀ c, tail.head? = some c → p c = false) :
    (ds ++ tail).takeWhile p = ds ∧ (ds ++ tail).dropWhile p = tail := by
  induction ds with
  | nil =>
    cases tail with
    | nil => simp
    | cons a tail =>
      have ha : ¬ p a = true := by
        rw [htail a rfl]; simp
      simp [List.takeWhile_cons_of_neg ha, List.dropWhile_cons_of_neg ha]
  | cons d ds ih =>
    have hd : p d = true := hds d (List.mem_cons_self _ _)
    obtain ⟨h1, h2⟩ := ih (fun c hc => hds c (List.mem_cons_of_mem _ hc))
    rw [List.cons_append, List.takeWhile_cons_of_pos hd, List.dropWhile_cons_of_pos hd, h1, h2]
    exact ⟨rfl, rfl⟩

theorem isdigit_not_isspace (c : Char) (h : isdigit c = true) : isspace c = false := by
  unfold isdigit at h
  unfold isspace
  simp only [Bool.and_eq_true, decide_eq_true_eq] at h
  simp only [Bool.or_eq_false_iff, decide_eq_false_iff_not, Bool.and_eq_false_imp,
    decide_eq_true_eq]
  omega

theorem isdigit_ne_sign (c : Char) (h : isdigit c = true) : c ≠ '-' ∧ c ≠ '+' := by
  constructor
  · intro e; rw [e] at h; revert h; decide
  · intro e; rw [e] at h; revert h; decide

theorem string_find_eq_some (c : Char) (cs : List Char) :
    ∀ pos, string_find c cs = some pos →
      cs = cs.take pos ++ c :: cs.drop (pos + 1) ∧ c ∉ cs.take pos := by
  induction cs with
  | nil => intro pos h; simp [string_find] at h
  | cons d rest ih =>
    intro pos h
    unfold string_find at h
    by_cases hd : d = c
    · rw [if_pos hd] at h
      have hp : pos = 0 := (Option.some.inj h).symm
      subst hp
      simp [hd]
    · rw [if_neg hd] at h
      cases hr : string_find c rest with
      | none => rw [hr] at h; simp at h
      | some q =>
        rw [hr] at h
        simp only [Option.map_some', Option.some.injEq] at h
        subst h
        obtain ⟨h1, h2⟩ := ih q hr
        refine ⟨?_, ?_⟩
        · simp only [List.take_succ_cons, List.drop_succ_cons, List.cons_append]
          rw [← h1]
        · simp only [List.take_succ_cons, List.mem_cons, not_or]
          exact ⟨fun e => hd e.symm, h2⟩

theorem string_find_append (c : Char) (before after : List Char) (h : c ∉ before) :
    string_find c (before ++ c :: after) = some before.length := by
  induction before with
  | nil => simp [string_find]
  | cons d before ih =>
    have hd : ¬ d = c := fun e => h (by rw [e]; exact List.mem_cons_self _ _)
    have hrest : c ∉ before := fun hin => h (List.mem_cons_of_mem _ hin)
    rw [List.cons_append, string_find, if_neg hd, ih hrest]
    rfl

end std

namespace cryptonote

theorem stream_extract_uint64_cases (text : List Char) :
    std.stream_extract_uint64 text =
      match text.dropWhile std.isspace with
      | [] => none
      | c :: rest =>
        if c = '-' then extract_signed true rest
        else if c = '+' then extract_signed false rest
        else extract_signed false (c :: rest) := by
  unfold std.stream_extract_uint64 extract_signed
  generalize text.dropWhile std.isspace = body
  cases body with
  | nil => rfl
  | cons c rest =>
    simp only []
    by_cases hm : c = '-'
    · simp only [if_pos hm]
    · by_cases hp : c = '+'
      · simp only [if_neg hm, if_pos hp]
      · simp only [if_neg hm, if_neg hp]

theorem extract_signed_eq_some_iff (neg : Bool) (digits : List Char) (k : Nat) :
    extract_signed neg digits = some k ↔
    (digits.takeWhile std.isdigit ≠ [] ∧
      std.digits_value (digits.takeWhile std.isdigit) < 2 ^ 64 ∧
      k = if neg = true then
          (2 ^ 64 - std.digits_value (digits.takeWhile std.isdigit)) % 2 ^ 64
        else std.digits_value (digits.takeWhile std.isdigit)) := by
  unfold extract_signed
  by_cases h1 : digits.takeWhile std.isdigit = []
  · rw [if_pos h1]
    constructor
    · intro h; exact absurd h (by simp)
    · intro h; exact absurd h1 h.1
  · by_cases h2 : 2 ^ 64 ≤ std.digits_value (digits.takeWhile std.isdigit)
    · rw [if_neg h1, if_pos h2]
      constructor
      · intro h; exact absurd h (by simp)
      · rintro ⟨_, hlt, _⟩
        exact absurd h2 (Nat.not_le_of_lt hlt)
    · rw [if_neg h1, if_neg h2]
      cases neg with
      | true =>
        simp only [if_true, Option.some.injEq]
        exact ⟨fun h => ⟨h1, Nat.lt_of_not_le h2, h.symm⟩, fun h => h.2.2.symm⟩
      | false =>
        simp only [Bool.false_eq_true, if_false, Option.some.injEq]
        exact ⟨fun h => ⟨h1, Nat.lt_of_not_le h2, h.symm⟩, fun h => h.2.2.symm⟩

theorem height_text_form_of_extract (text : List Char) (k : Nat)
    (h : std.stream_extract_uint64 text = some k) : height_text_form text k := by
  rw [stream_extract_uint64_cases] at h
  have hsplit : text = text.takeWhile std.isspace ++ text.dropWhile std.isspace :=
    (List.takeWhile_append_dropWhile std.isspace text).symm
  have hws := std.takeWhile_all std.isspace text
  generalize text.takeWhile std.isspace = ws at hsplit hws
  generalize text.dropWhile std.isspace = body at hsplit h
  have finish : ∀ (neg : Bool) (sign digits : List Char), body = sign ++ digits →
      (sign = [] ∨ sign = ['+'] ∨ sign = ['-']) → (neg = true ↔ sign = ['-']) →
      extract_signed neg digits = some k → height_text_form text k := by
    intro neg sign digits hbody hsign hneg hval
    obtain ⟨hne, hlt, hk⟩ := (extract_signed_eq_some_iff neg digits k).1 hval
    refine ⟨ws, sign, digits.takeWhile std.isdigit, digits.dropWhile std.isdigit, ?_, hws,
      hsign, hne, std.takeWhile_all std.isdigit digits, std.dropWhile_head std.isdigit digits,
      hlt, ?_⟩
    · rw [List.takeWhile_append_dropWhile, ← hbody]
      exact hsplit
    · rw [hk]
      by_cases hn : neg = true
      · rw [if_pos hn, if_pos (hneg.1 hn)]
      · rw [if_neg hn, if_neg (fun e => hn (hneg.2 e))]
  cases body with
  | nil => simp at h
  | cons c rest =>
    simp only [] at h
    by_cases hm : c = '-'
    · rw [if_pos hm] at h
      exact finish true ['-'] rest (by rw [hm]; rfl) (Or.inr (Or.inr rfl)) (by simp) h
    · rw [if_neg hm] at h
      by_cases hp : c = '+'
      · rw [if_pos hp] at h
        exact finish false ['+'] rest (by rw [hp]; rfl) (Or.inr (Or.inl rfl)) (by decide) h
      · rw [if_neg hp] at h
        exact finish false [] (c :: rest) rfl (Or.inl rfl) (by decide) h

theorem extract_of_height_text_form (text : List Char) (k : Nat)
    (h : height_text_form text k) : std.stream_extract_uint64 text = some k := by
  obtain ⟨ws, sign, ds, tail, htext, hws, hsign, hds, hdigits, htail, hlt, hk⟩ := h
  obtain ⟨d, ds2, hd⟩ := List.exists_cons_of_ne_nil hds
  have hdd : std.isdigit d = true := hdigits d (by rw [hd]; exact List.mem_cons_self _ _)
  have hbodyhead : ∀ c, (sign ++ (ds ++ tail)).head? = some c → std.isspace c = false := by
    intro c hc
    rcases hsign with rfl | rfl | rfl
    · rw [hd] at hc
      simp only [List.nil_append, List.cons_append, List.head?_cons, Option.some.injEq] at hc
      rw [← hc]; exact std.isdigit_not_isspace d hdd
    · simp only [List.cons_append, List.head?_cons, Option.some.injEq] at hc
      rw [← hc]; decide
    · simp only [List.cons_append, List.head?_cons, Option.some.injEq] at hc
      rw [← hc]; decide
  have hdrop : text.dropWhile std.isspace = sign ++ (ds ++ tail) := by
    rw [htext]
    exact (std.takeWhile_append_stop std.isspace ws _ hws hbodyhead).2
  have htake : (ds ++ tail).takeWhile std.isdigit = ds :=
    (std.takeWhile_append_stop std.isdigit ds tail hdigits htail).1
  have hcore : ∀ neg : Bool, extract_signed neg (ds ++ tail) =
      some (if neg = true then (2 ^ 64 - std.digits_value ds) % 2 ^ 64
        else std.digits_value ds) := by
    intro neg
    rw [extract_signed_eq_some_iff, htake]
    exact ⟨hds, hlt, rfl⟩
  rw [stream_extract_uint64_cases, hdrop]
  rcases hsign with rfl | rfl | rfl
  · have hbody : ([] : List Char) ++ (ds ++ tail) = d :: (ds2 ++ tail) := by rw [hd]; rfl
    rw [hbody]
    simp only []
    rw [if_neg (std.isdigit_ne_sign d hdd).1, if_neg (std.isdigit_ne_sign d hdd).2,
      ← hbody, List.nil_append, hcore false, hk]
    simp
  · show (if '+' = '-' then extract_signed true (ds ++ tail)
      else if '+' = '+' then extract_signed false (ds ++ tail)
      else extract_signed false ('+' :: (ds ++ tail))) = some k
    rw [if_neg (by decide), if_pos rfl, hcore false, hk]
    simp
  · show (if '-' = '-' then extract_signed true (ds ++ tail)
      else if '-' = '+' then extract_signed false (ds ++ tail)
      else extract_signed false ('-' :: (ds ++ tail))) = some k
    rw [if_pos rfl, hcore true, hk]
    simp

/-- The value `ss >> height` extracts, characterised by the form of the text. -/
theorem stream_extract_uint64_eq_some_iff (text : List Char) (k : Nat) :
    std.stream_extract_uint64 text = some k ↔ height_text_form text k :=
  ⟨height_text_form_of_extract text k, extract_of_height_text_form text k⟩

end cryptonote

namespace cryptonote

theorem dns_record_form_iff (record : String) (k : Nat) (hashStr : String) :
    dns_record_form record k hashStr ↔
      ∃ pos, std.string_find ':' record.data = some pos ∧
        std.stream_extract_uint64 (record.data.take pos) = some k ∧
        (epee.parse_tpod_from_hex_string (String.mk (record.data.drop (pos + 1)))).isSome =
          true ∧
        hashStr = String.mk (record.data.drop (pos + 1)) := by
  constructor
  · rintro ⟨before, after, hdata, hno, hform, hlen, hhex, hstr⟩
    have htake : record.data.take before.length = before := by
      rw [hdata]; simp
    have hdrop : record.data.drop (before.length + 1) = after := by
      rw [hdata]; simp
    refine ⟨before.length, ?_, ?_, ?_, ?_⟩
    · rw [hdata]; exact std.string_find_append ':' before after hno
    · rw [htake]; exact extract_of_height_text_form before k hform
    · rw [hdrop, epee.parse_tpod_from_hex_string_isSome_iff]
      exact ⟨hlen, hhex⟩
    · rw [hdrop]; exact hstr
  · rintro ⟨pos, hfind, hext, hhex, hstr⟩
    obtain ⟨hsplit, hno⟩ := std.string_find_eq_some ':' record.data pos hfind
    obtain ⟨hlen, hall⟩ := (epee.parse_tpod_from_hex_string_isSome_iff _).1 hhex
    exact ⟨record.data.take pos, record.data.drop (pos + 1), hsplit, hno,
      height_text_form_of_extract _ k hext, hlen, hall, hstr⟩

theorem dns_record_form_of_parsable (record : String)
    (h : dns_record_unparsable record = false) :
    ∃ k hashStr, dns_record_form record k hashStr := by
  unfold dns_record_unparsable at h
  cases hfind : std.string_find ':' record.data with
  | none => rw [hfind] at h; simp at h
  | some pos =>
    rw [hfind] at h
    simp only [Bool.or_eq_false_iff] at h
    obtain ⟨h1, h2⟩ := h
    cases hext : std.stream_extract_uint64 (record.data.take pos) with
    | none => rw [hext] at h1; simp at h1
    | some k =>
      refine ⟨k, String.mk (record.data.drop (pos + 1)), (dns_record_form_iff _ _ _).2
        ⟨pos, hfind, hext, ?_, rfl⟩⟩
      cases hhex : epee.parse_tpod_from_hex_string (String.mk (record.data.drop (pos + 1))) with
      | none => rw [hhex] at h2; simp at h2
      | some v => rfl

/-- C18, counterexample.  On the empty store, a record whose height part is
"12abc", one whose height part is " 12" and one whose height part is "-1" are
not skipped: they insert checkpoints at the heights 12, 12 and `2 ^ 64 - 1`. -/
theorem load_checkpoints_from_dns_lenient_height :
    load_checkpoints_from_dns checkpoints.new network_type.MAINNET
        (fun _ => (true, ["12abc:" ++ hex_aa])) = (true, store_single 12 (sample_hash 0xaa)) ∧
    load_checkpoints_from_dns checkpoints.new network_type.MAINNET
        (fun _ => (true, [" 12:" ++ hex_aa])) = (true, store_single 12 (sample_hash 0xaa)) ∧
    load_checkpoints_from_dns checkpoints.new network_type.MAINNET
        (fun _ => (true, ["-1:" ++ hex_aa])) =
      (true, store_single 18446744073709551615 (sample_hash 0xaa)) := by
  decide

/-- C18, as amended.  `load_checkpoints_from_dns` reaches
`ADD_CHECKPOINT(k, hashStr)` for a record exactly when the record has the form
`dns_record_form`: the text before the first ':' is white space, at most one
sign, a run of decimal digits with value below `2 ^ 64`, then anything not
starting with a digit, and the text after the first ':' is 64 hexadecimal
characters; `k` is the value of the digits, negated modulo `2 ^ 64` after a
minus sign.  Every other record is skipped.  So "12abc", " 12" and "-1" are
accepted as the heights 12, 12 and `2 ^ 64 - 1`, while "abc", "" and a number
of 20 digits above `2 ^ 64 - 1` are not. -/
theorem load_checkpoints_from_dns_record_form (s : checkpoints) (nettype : network_type)
    (record : String) (rest : List String) :
    (∀ k hashStr, dns_record_form record k hashStr →
        load_checkpoints_from_dns s nettype (fun _ => (true, record :: rest)) =
          if (add_checkpoint s k hashStr).1 = true then
            load_checkpoints_from_dns (add_checkpoint s k hashStr).2 nettype
              (fun _ => (true, rest))
          else (false, (add_checkpoint s k hashStr).2)) ∧
    ((¬ ∃ k hashStr, dns_record_form record k hashStr) →
        load_checkpoints_from_dns s nettype (fun _ => (true, record :: rest)) =
          load_checkpoints_from_dns s nettype (fun _ => (true, rest))) ∧
    dns_record_form ("12abc:" ++ hex_aa) 12 hex_aa ∧
    dns_record_form (" 12:" ++ hex_aa) 12 hex_aa ∧
    dns_record_form ("-1:" ++ hex_aa) (2 ^ 64 - 1) hex_aa ∧
    (¬ ∃ k hashStr, dns_record_form ("abc:" ++ hex_aa) k hashStr) ∧
    (¬ ∃ k hashStr, dns_record_form (":" ++ hex_aa) k hashStr) ∧
    (¬ ∃ k hashStr, dns_record_form ("18446744073709551616:" ++ hex_aa) k hashStr) := by
  have hloop : ∀ (t : checkpoints) (records : List String),
      load_checkpoints_from_dns t nettype (fun _ => (true, records)) =
        load_checkpoints_from_dns_loop t records := by
    intro t records
    rw [load_checkpoints_from_dns_eq]
    simp
  have hskip : ∀ r : String, dns_record_unparsable r = true →
      ¬ ∃ k hashStr, dns_record_form r k hashStr := by
    rintro r hbad ⟨k, hashStr, hform⟩
    obtain ⟨pos, hfind, hext, hhex, _⟩ := (dns_record_form_iff r k hashStr).1 hform
    unfold dns_record_unparsable at hbad
    rw [hfind] at hbad
    simp only [hext] at hbad
    rw [Option.isSome_iff_exists] at hhex
    obtain ⟨v, hv⟩ := hhex
    rw [hv] at hbad
    simp at hbad
  refine ⟨?_, ?_, ?_, ?_, ?_, hskip _ (by decide), hskip _ (by decide), hskip _ (by decide)⟩
  · intro k hashStr hform
    obtain ⟨pos, hfind, hext, hhex, hstr⟩ := (dns_record_form_iff record k hashStr).1 hform
    obtain ⟨v, hv⟩ := Option.isSome_iff_exists.1 hhex
    rw [hloop, hloop, hstr]
    exact load_checkpoints_from_dns_loop_step s record rest pos k v hfind hext hv
  · intro hno
    rw [hloop, hloop]
    cases hbad : dns_record_unparsable record with
    | true => exact load_checkpoints_from_dns_loop_skip s record rest hbad
    | false => exact absurd (dns_record_form_of_parsable record hbad) hno
  · exact (dns_record_form_iff _ _ _).2 ⟨5, by decide, by decide, by decide, by decide⟩
  · exact (dns_record_form_iff _ _ _).2 ⟨3, by decide, by decide, by decide, by decide⟩
  · exact (dns_record_form_iff _ _ _).2 ⟨2, by decide, by decide, by decide, by decide⟩

/-- Witness of C18 as amended. -/
theorem load_checkpoints_from_dns_record_form_witness :
    dns_record_form ("12abc:" ++ hex_aa) 12 hex_aa ∧
    load_checkpoints_from_dns checkpoints.new network_type.MAINNET
        (fun _ => (true, ("12abc:" ++ hex_aa) :: [])) =
      if (add_checkpoint checkpoints.new 12 hex_aa).1 = true then
        load_checkpoints_from_dns (add_checkpoint checkpoints.new 12 hex_aa).2
          network_type.MAINNET (fun _ => (true, []))
      else (false, (add_checkpoint checkpoints.new 12 hex_aa).2) :=
  ⟨(load_checkpoints_from_dns_record_form checkpoints.new network_type.MAINNET
      ("12abc:" ++ hex_aa) []).2.2.1,
    (load_checkpoints_from_dns_record_form checkpoints.new network_type.MAINNET
      ("12abc:" ++ hex_aa) []).1 12 hex_aa
      ((load_checkpoints_from_dns_record_form checkpoints.new network_type.MAINNET
        ("12abc:" ++ hex_aa) []).2.2.1)⟩

end cryptonote
